import Mathlib

/-!
# Verification of the `patterns` masked byte-pattern scanner

A shallow embedding of the scanner library (`src/pattern.rs`, `src/scanner.rs`,
`src/const_utils.rs`, plus the scalar bitmask utilities of `src/lib.rs`) into
Lean, together with proofs and refutations of the specification's claims.

Modelling conventions:

* `Simd<u8, BYTES>` vectors are modelled as functions `Nat → Nat`
  (lanes at indices `≥ BYTES` are irrelevant).
* `Mask<i8, BYTES>` lane masks and `BytesMask = u64` bitmasks are both
  modelled as natural numbers holding the little-endian bitmask
  (`Nat.testBit m i` is lane/bit `i`); `to_bitmask`/`from_bitmask` are
  the identity under this view.
* Machine addresses are natural numbers.  The library itself assumes the
  haystack is placed far enough from address 0 and from `usize::MAX`
  (`debug_assert_opt!` guards in `Scanner::new`); we carry the
  corresponding lower-bound hypothesis where address arithmetic appears.
* Rust `usize` subtraction appears only where the library guarantees no
  underflow; `Nat` truncated subtraction coincides with it there.
* Loops are modelled by structurally recursive functions with an explicit
  fuel argument so that every definition is executable by the kernel;
  fuel bounds are chosen (and proved where needed) to exceed the number
  of loop iterations the source can perform.
-/

namespace Patterns

/-! ## Little-endian bit vectors

`bitsOf B p` is the `B`-bit mask whose bit `i` is `p i` — the common
meaning of `Mask::to_bitmask()` for a lane predicate `p`. -/

def bitsOf : Nat → (Nat → Bool) → Nat
  | 0, _ => 0
  | B + 1, p => (if p 0 then 1 else 0) + 2 * bitsOf B (fun i => p (i + 1))

theorem bitsOf_lt_two_pow (B : Nat) (p : Nat → Bool) : bitsOf B p < 2 ^ B := by
  induction B generalizing p with
  | zero => simp [bitsOf]
  | succ B ih =>
    have h := ih (fun i => p (i + 1))
    by_cases hp : p 0 <;> simp [bitsOf, hp, Nat.pow_succ] <;> omega

theorem testBit_bitsOf (B : Nat) (p : Nat → Bool) (i : Nat) :
    (bitsOf B p).testBit i = (decide (i < B) && p i) := by
  induction B generalizing p i with
  | zero => simp [bitsOf]
  | succ B ih =>
    cases i with
    | zero =>
      by_cases hp : p 0 <;>
        simp [bitsOf, hp, Nat.testBit, Nat.mod_two_eq_zero_or_one,
          Nat.add_mul_mod_self_left]
    | succ i =>
      have h2 : (bitsOf (B + 1) p) / 2 = bitsOf B (fun i => p (i + 1)) := by
        by_cases hp : p 0 <;> simp [bitsOf, hp] <;> omega
      rw [Nat.testBit_succ, h2, ih]
      simp

theorem testBit_eq_false_of_ge {B : Nat} {p : Nat → Bool} {i : Nat} (h : B ≤ i) :
    (bitsOf B p).testBit i = false := by
  simp [testBit_bitsOf, Nat.not_lt.mpr h]

/-! ## Trailing zeros (`u64::trailing_zeros`) and bit clearing

`consume_candidates` extracts the lowest set bit with
`candidates_mask.trailing_zeros()` and clears it with
`candidates_mask ^= 1 << offset`. -/

def lowBitAux : Nat → Nat → Nat
  | 0, _ => 0
  | fuel + 1, m => if m % 2 = 1 then 0 else lowBitAux fuel (m / 2) + 1

theorem lowBitAux_spec (fuel m : Nat) (hm : m ≠ 0) (hlt : m < 2 ^ fuel) :
    m.testBit (lowBitAux fuel m) = true ∧
      ∀ j < lowBitAux fuel m, m.testBit j = false := by
  induction fuel generalizing m with
  | zero => omega
  | succ fuel ih =>
    by_cases h1 : m % 2 = 1
    · refine ⟨?_, ?_⟩
      · simpa [lowBitAux, h1, Nat.testBit] using h1
      · intro j hj
        simp [lowBitAux, h1] at hj
    · have hm2 : m / 2 ≠ 0 := by omega
      have hlt2 : m / 2 < 2 ^ fuel := by
        rw [Nat.pow_succ] at hlt; omega
      obtain ⟨hbit, hlow⟩ := ih (m / 2) hm2 hlt2
      refine ⟨?_, ?_⟩
      · simpa [lowBitAux, h1, Nat.testBit_succ] using hbit
      · intro j hj
        simp only [lowBitAux, h1, if_false] at hj
        cases j with
        | zero => simp [Nat.testBit, Nat.mod_two_eq_zero_or_one]; omega
        | succ j => rw [Nat.testBit_succ]; exact hlow j (by omega)

theorem testBit_one_shiftLeft (s i : Nat) :
    (1 <<< s).testBit i = decide (i = s) := by
  rw [Nat.shiftLeft_eq, one_mul]
  by_cases h : s = i
  · simp [h, Nat.testBit_two_pow_self]
  · rw [Nat.testBit_two_pow_of_ne h]
    simp; omega

/-- Clearing the lowest set bit: bit view of `m ^= 1 << off`. -/
theorem testBit_clear (m off i : Nat) :
    (m ^^^ (1 <<< off)).testBit i =
      (if i = off then !(m.testBit i) else m.testBit i) := by
  rw [Nat.testBit_xor, testBit_one_shiftLeft]
  by_cases h : i = off <;> simp [h]

/-- Clearing a set bit strictly decreases the mask. -/
theorem clear_lt (m off : Nat) (h : m.testBit off = true) :
    m ^^^ (1 <<< off) < m := by
  refine Nat.lt_of_testBit off ?_ h ?_
  · rw [testBit_clear]; simp [h]
  · intro j hj
    rw [testBit_clear]
    simp [Nat.ne_of_gt hj]

/-! ## Bitmask utilities

Scalar chunkmask helpers consumed by the scanner
(`Scanner::reduce_bitmask` in `src/lib.rs` lines 304–323, and the mask
utilities of `src/masks.rs` in their `BytesMask` form used by
`src/scanner.rs`). -/

/-- The constant `mask::<ALIGNMENT>()` inside `reduce_bitmask`: one bit at
the start of each alignment-sized group (`…0001 0001`). -/
def groupPattern (A B : Nat) : Nat :=
  (List.range (B / A)).foldl (fun m i => m ||| (1 <<< (A * i))) 0

/-- The shift cascade `m &= m >> s` for `s = 1, 2, 4, …` while `s < A`,
from `Scanner::reduce_bitmask`.  The source uses a `while` loop doubling
`shift` from 1; for the supported alignments (`A ≤ 64`) that is exactly a
pass over the shifts `1, 2, 4, 8, 16, 32` applying those `< A`. -/
def reduceShifts : List Nat := [1, 2, 4, 8, 16, 32]

/-- `Scanner::reduce_bitmask` (`src/lib.rs` lines 304–323): keep bit `i`
only when the whole alignment group starting at `i` is set and `i` is a
group start. -/
def reduceBitmask (A B m : Nat) : Nat :=
  (reduceShifts.foldl (fun acc s => if s < A then acc &&& (acc >>> s) else acc) m)
    &&& groupPattern A B

/-- `Scanner::extend_bitmask` (`src/masks.rs` lines 85–91): the `Splatter`
swizzle broadcasts the first lane of every alignment group to the whole
group. -/
def extendBitmask (A B m : Nat) : Nat :=
  bitsOf B (fun i => m.testBit (A * (i / A)))

/-- `Scanner::data_len_mask` (`src/masks.rs` lines 16–27): lane `i` is true
iff `i < min len BYTES`. -/
def dataLenMask (B len : Nat) : Nat :=
  bitsOf B (fun i => decide (i < min len B))

/-- `Scanner::mask_min_len` (`src/masks.rs` lines 41–50). -/
def maskMinLen (A B lenMask patternMask : Nat) : Nat :=
  extendBitmask A B (reduceBitmask A B (patternMask ||| lenMask)) ||| lenMask

/-! ### Characterization of `reduceBitmask` -/

/-- One `m &= m >> s` step. -/
def andShift (m s : Nat) : Nat := m &&& (m >>> s)

theorem testBit_andShift (m s i : Nat) :
    (andShift m s).testBit i = (m.testBit i && m.testBit (i + s)) := by
  rw [andShift, Nat.testBit_land, Nat.testBit_shiftRight, Nat.add_comm s i]

/-- `k` doubling steps of the cascade. -/
def powAnd : Nat → Nat → Nat
  | 0, m => m
  | k + 1, m => andShift (powAnd k m) (2 ^ k)

theorem testBit_powAnd (k m i : Nat) :
    (powAnd k m).testBit i = decide (∀ j < 2 ^ k, m.testBit (i + j) = true) := by
  induction k generalizing i with
  | zero =>
    simp only [powAnd, pow_zero]
    rcases h : m.testBit i with _ | _ <;> simp [Nat.lt_one_iff, h]
  | succ k ih =>
    rw [powAnd, testBit_andShift, ih, ih, ← Bool.decide_and, decide_eq_decide]
    constructor
    · rintro ⟨h1, h2⟩ j hj
      rcases Nat.lt_or_ge j (2 ^ k) with hjk | hjk
      · exact h1 j hjk
      · have := h2 (j - 2 ^ k) (by rw [Nat.pow_succ] at hj; omega)
        rwa [Nat.add_assoc, Nat.add_sub_cancel' hjk] at this
    · intro h
      refine ⟨fun j hj => h j (lt_of_lt_of_le hj ?_), fun j hj => ?_⟩
      · exact Nat.pow_le_pow_right (by omega) (by omega)
      · rw [Nat.add_assoc]
        exact h (2 ^ k + j) (by rw [Nat.pow_succ]; omega)

theorem testBit_groupPattern (A B i : Nat) (hA : 0 < A) :
    (groupPattern A B).testBit i = decide (i < (B / A) * A ∧ i % A = 0) := by
  have key : ∀ n, ((List.range n).foldl (fun m i => m ||| (1 <<< (A * i))) 0).testBit i
      = decide (∃ k < n, i = A * k) := by
    intro n
    induction n with
    | zero => simp
    | succ n ih =>
      rw [List.range_succ, List.foldl_append, List.foldl_cons, List.foldl_nil,
        Nat.testBit_lor, ih, testBit_one_shiftLeft, ← Bool.decide_or, decide_eq_decide]
      constructor
      · rintro (⟨k, hk, rfl⟩ | rfl)
        · exact ⟨k, by omega, rfl⟩
        · exact ⟨n, by omega, rfl⟩
      · rintro ⟨k, hk, rfl⟩
        rcases Nat.lt_or_ge k n with h | h
        · exact Or.inl ⟨k, h, rfl⟩
        · have : k = n := by omega
          exact Or.inr (by rw [this])
  rw [groupPattern, key, decide_eq_decide]
  constructor
  · rintro ⟨k, hk, rfl⟩
    refine ⟨?_, by simp [Nat.mul_mod_right]⟩
    have hstep : A * k + A ≤ (B / A) * A := by
      have h1 : k + 1 ≤ B / A := hk
      have h2 : A * (k + 1) ≤ A * (B / A) := Nat.mul_le_mul_left A h1
      calc A * k + A = A * (k + 1) := by ring
        _ ≤ A * (B / A) := h2
        _ = (B / A) * A := Nat.mul_comm ..
    omega
  · rintro ⟨h1, h2⟩
    obtain ⟨q, rfl⟩ := Nat.dvd_of_mod_eq_zero h2
    refine ⟨q, ?_, rfl⟩
    by_contra hc
    push_neg at hc
    have : (B / A) * A ≤ A * q := by
      calc (B / A) * A = A * (B / A) := Nat.mul_comm ..
        _ ≤ A * q := Nat.mul_le_mul_left A hc
    omega

/-- For each supported alignment the cascade equals `powAnd log2 A`. -/
theorem reduceBitmask_eq_powAnd (A B m : Nat)
    (hA : A = 1 ∨ A = 2 ∨ A = 4 ∨ A = 8 ∨ A = 16 ∨ A = 32 ∨ A = 64) :
    ∃ k, A = 2 ^ k ∧ reduceBitmask A B m = powAnd k m &&& groupPattern A B := by
  rcases hA with rfl | rfl | rfl | rfl | rfl | rfl | rfl
  · exact ⟨0, rfl, rfl⟩
  · exact ⟨1, rfl, rfl⟩
  · exact ⟨2, rfl, rfl⟩
  · exact ⟨3, rfl, rfl⟩
  · exact ⟨4, rfl, rfl⟩
  · exact ⟨5, rfl, rfl⟩
  · exact ⟨6, rfl, rfl⟩

/-- Bit-level specification of `reduce_bitmask`: bit `i` of the result is
set iff `i` is a group start within range and the whole group is set. -/
theorem testBit_reduceBitmask (A B m i : Nat)
    (hA : A = 1 ∨ A = 2 ∨ A = 4 ∨ A = 8 ∨ A = 16 ∨ A = 32 ∨ A = 64) :
    (reduceBitmask A B m).testBit i =
      decide (i < (B / A) * A ∧ i % A = 0 ∧ ∀ j < A, m.testBit (i + j) = true) := by
  obtain ⟨k, hk, heq⟩ := reduceBitmask_eq_powAnd A B m hA
  have hApos : 0 < A := by rcases hA with rfl | rfl | rfl | rfl | rfl | rfl | rfl <;> norm_num
  rw [heq, Nat.testBit_land, testBit_powAnd, testBit_groupPattern A B i hApos, ← hk]
  rcases Decidable.em (i < (B / A) * A ∧ i % A = 0 ∧ ∀ j < A, m.testBit (i + j) = true)
    with h | h
  · simp [h.1, h.2.1, h.2.2]
  · rcases Decidable.em (∀ j < A, m.testBit (i + j) = true) with hj | hj
    · have : ¬(i < (B / A) * A ∧ i % A = 0) := fun hc => h ⟨hc.1, hc.2, hj⟩
      simp [this, h]
    · simp [hj, h]

/-! ## `const_utils.rs`: tokenizer and token classification

Pattern text is handled as its UTF-8 byte sequence (`str::as_bytes`),
modelled as `List Nat`.  `SplitAsciiWhitespace::next` scans to the first
ASCII whitespace byte, takes the bytes before it as the chunk, consumes
one separator byte, and returns `None` when the chunk is empty.  (The
`from_utf8` check in the source cannot fail: splitting valid UTF-8 at
ASCII byte positions yields valid UTF-8, so the model elides it.) -/

def isAsciiWhitespace (b : Nat) : Bool :=
  b == 0x20 || b == 0x09 || b == 0x0A || b == 0x0C || b == 0x0D

/-- `SplitAsciiWhitespace::next` (`src/const_utils.rs` lines 20–45):
returns the parsed token (if any) and the remaining bytes. -/
def splitNext (bytes : List Nat) : Option (List Nat) × List Nat :=
  let chunk := bytes.takeWhile (fun b => !isAsciiWhitespace b)
  let rest := (bytes.dropWhile (fun b => !isAsciiWhitespace b)).drop 1
  (if chunk.isEmpty then none else some chunk, rest)

/-- Repeated `next` until the first `None`, which is how both `count` and
the parse loop in `Pattern::from_str` traverse the input.  Note this stops
at the first *empty chunk*: a leading whitespace byte or two consecutive
whitespace bytes terminate the token stream early. -/
def tokensAux : Nat → List Nat → List (List Nat)
  | 0, _ => []
  | fuel + 1, bytes =>
    match splitNext bytes with
    | (none, _) => []
    | (some t, rest) => t :: tokensAux fuel rest

def tokens (bytes : List Nat) : List (List Nat) :=
  tokensAux (bytes.length + 1) bytes

/-- `const_utils::is_wildcard` (`src/const_utils.rs` lines 62–65): checks
`byte[0] & b'.' == b'.'` with `b'.' = 0x2E`.  This accepts every first
byte having all of bits {1,2,3,5} set — including `.` and `?`, but also
`/`, `>`, `n`, `o`, `~`, DEL and several non-ASCII lead bytes. -/
def is_wildcard (tok : List Nat) : Bool :=
  (tok.headD 0) &&& 0x2E == 0x2E

/-- The digit `match` inside `const_utils::hex_to_u8`. -/
def hexDigit (b : Nat) : Option Nat :=
  if 0x30 ≤ b ∧ b ≤ 0x39 then some (b - 0x30)
  else if 0x41 ≤ b ∧ b ≤ 0x46 then some (b - 0x41 + 10)
  else if 0x61 ≤ b ∧ b ≤ 0x66 then some (b - 0x61 + 10)
  else none

/-- `const_utils::hex_to_u8` (`src/const_utils.rs` lines 67–88): exactly
two hex digits; high digit shifted by 4.  `none` models
`Err(IntErrorKind::InvalidDigit)`. -/
def hex_to_u8 (tok : List Nat) : Option Nat :=
  if tok.length ≠ 2 then none
  else
    match hexDigit (tok.getD 0 0), hexDigit (tok.getD 1 0) with
    | some hi, some lo => some ((hi <<< 4) ||| lo)
    | _, _ => none

/-! ## `pattern.rs`: the pattern compiler -/

inductive ParsePatternError where
  | PatternTooLong
  | InvalidHexNumber
  | MissingNonWildcardByte
deriving DecidableEq, Repr

/-- The loop body of `find_first_byte_offset` (`src/pattern.rs` lines
165–199), iterating `ALIGNMENT`-sized chunks of the mask array and
tracking the first group index with the strictly highest count of fixed
(non-wildcard) entries.  A mask entry is modelled as `Bool`
(`true` ↔ the `i8` entry is non-zero, i.e. a fixed byte). -/
def ffboAux (A : Nat) : Nat → List Bool → Nat → Nat → Nat → Nat × Nat
  | 0, _, _, smallest, highest => (smallest, highest)
  | fuel + 1, mask, i, smallest, highest =>
    if mask.length < A then (smallest, highest)
    else
      let chunk := mask.take A
      let rest := mask.drop A
      let count := chunk.count true
      if count > highest then ffboAux A fuel rest (i + 1) i count
      else ffboAux A fuel rest (i + 1) smallest highest

def find_first_byte_offset (A : Nat) (mask : List Bool) :
    Except ParsePatternError Nat :=
  let r := ffboAux A (mask.length + 1) mask 0 0 0
  if r.2 = 0 then .error .MissingNonWildcardByte else .ok (r.1 * A)

/-- `fill_first_bytes` (`src/pattern.rs` lines 201–231): repeat the
alignment-sized group starting at the anchor across all lanes; the mask is
inverted (`first_mask[i*A+j] = !mask[j]`), so a *set* lane marks a
wildcard.  `chunk`/`mask` are the buffer and mask arrays starting at
`first_byte_offset`.  Lanes at `≥ (B / A) * A` keep their zero
initialisation. -/
def fill_first_bytes (A B : Nat) (chunk : List Nat) (mask : List Bool) :
    (Nat → Nat) × Nat :=
  (fun k => if k < B / A * A then chunk.getD (k % A) 0 else 0,
    bitsOf B (fun k => decide (k < B / A * A) && !(mask.getD (k % A) false)))

/-- The compiled pattern (`struct Pattern`, `src/pattern.rs` lines 19–34).
`bytes`/`first_bytes` are `Simd<u8, BYTES>` lane vectors; `mask` and
`first_bytes_mask` are the `Mask<i8, BYTES>` lane masks in bitmask view. -/
structure Pattern where
  bytes : Nat → Nat
  mask : Nat
  first_bytes : Nat → Nat
  first_bytes_mask : Nat
  first_byte_offset : Nat
  length : Nat

/-- The token-consuming loop of `Pattern::from_str` (`src/pattern.rs`
lines 106–124): wildcards advance the index, fixed tokens must parse as
hex and set buffer byte and mask entry. -/
def parseToks : List (List Nat) → Nat → List Nat → List Bool →
    Except ParsePatternError (List Nat × List Bool)
  | [], _, buffer, mask => .ok (buffer, mask)
  | t :: ts, index, buffer, mask =>
    if is_wildcard t then parseToks ts (index + 1) buffer mask
    else
      match hex_to_u8 t with
      | none => .error .InvalidHexNumber
      | some v => parseToks ts (index + 1) (buffer.set index v) (mask.set index true)

/-- `Pattern::from_str` (`src/pattern.rs` lines 92–153). -/
def from_str (A B : Nat) (s : List Nat) : Except ParsePatternError Pattern :=
  let toks := tokens s
  if toks.length > B then .error .PatternTooLong
  else
    match parseToks toks 0 (List.replicate B 0) (List.replicate B false) with
    | .error e => .error e
    | .ok (buffer, mask) =>
      match find_first_byte_offset A mask with
      | .error e => .error e
      | .ok fbo =>
        let fb := fill_first_bytes A B (buffer.drop fbo) (mask.drop fbo)
        .ok
          { bytes := fun i => buffer.getD i 0
            mask := bitsOf B (fun i => mask.getD i false)
            first_bytes := fb.1
            first_bytes_mask := fb.2
            first_byte_offset := fbo
            length := toks.length }

/-- The mask-lane list built inside `from_slice`: the user mask is
trimmed to its high `length` bits
(`u64::MAX.checked_shr(length).unwrap_or(0).not() & mask`, where
`.not()` is XOR with `u64::MAX`), and `reverse_bits` followed by
`Mask::from_bitmask` puts bit `63 - j` into lane `j`. -/
def sliceMaskList (B length mask : Nat) : List Bool :=
  (List.range B).map
    (fun j => ((((2 ^ 64 - 1) >>> length) ^^^ (2 ^ 64 - 1)) &&& mask).testBit (63 - j))

/-- `Pattern::from_slice` (`src/pattern.rs` lines 64–90), the `load_raw`
entry point.  `none` models a panic:
either `copy_from_slice` on a source longer than `BYTES`
(`input[..length].copy_from_slice(bytes)` requires equal lengths), or the
`unwrap` of `find_first_byte_offset` when no fixed byte remains. -/
def from_slice (A B : Nat) (bytes : List Nat) (mask : Nat) : Option Pattern :=
  if bytes.length > B then none
  else
    let length := min bytes.length B
    let inputList := (List.range B).map (fun i => if i < length then bytes.getD i 0 else 0)
    let maskList := sliceMaskList B length mask
    match find_first_byte_offset A maskList with
    | .error _ => none
    | .ok fbo =>
      let fb := fill_first_bytes A B (inputList.drop fbo) (maskList.drop fbo)
      some
        { bytes := fun i => inputList.getD i 0
          mask := bitsOf B (fun i => maskList.getD i false)
          first_bytes := fb.1
          first_bytes_mask := fb.2
          first_byte_offset := fbo
          length := length }

/-! ## `scanner.rs`: the scanner

Memory is a total byte function `mem : Nat → Nat`; the haystack is the
slice `[addr, addr + len)` of it.  The scanner state (`struct Scanner`)
carries the candidates bitmask, the absolute chunk position and the
`exhausted` flag; `data`, `end` and the pattern are fixed per scan and
appear as parameters (`end` is `addr + len - 2 * BYTES`, as initialised in
`Scanner::new`; the library assumes this cannot underflow, see the
`debug_assert_opt!` guards). -/

/-- `simd_eq(..).to_bitmask()` of two lane vectors. -/
def eqMask (B : Nat) (v w : Nat → Nat) : Nat :=
  bitsOf B (fun i => v i == w i)

/-- `Scanner::load` (`src/scanner.rs` lines 409–422): a masked load reads
byte `ptr + i` only where the length mask is set (other lanes are the
`Default` zero); the unmasked variants read all `BYTES` lanes.  The
`UNALIGNED` distinction only affects hardware instruction choice and has
no semantic content here. -/
def load (mem : Nat → Nat) (safe : Bool) (ptr lenMask : Nat) : Nat → Nat :=
  fun i => if safe then (if lenMask.testBit i then mem (ptr + i) else 0) else mem (ptr + i)

/-- `Scanner::build_candidates` (`src/scanner.rs` lines 325–349). -/
def build_candidates (A B : Nat) (P : Pattern) (mem : Nat → Nat)
    (safe : Bool) (ptr n : Nat) : Nat :=
  let lenMask := dataLenMask B n
  let d := load mem safe ptr lenMask
  let search := eqMask B d P.first_bytes
  let search := if 1 < A then search ||| P.first_bytes_mask else search
  let result := if safe then search &&& maskMinLen A B lenMask P.first_bytes_mask else search
  reduceBitmask A B result

/-- `self.end`: one past the end of data minus `2 * BYTES`. -/
def endAddr (B addr len : Nat) : Nat := addr + len - 2 * B

/-- The verification comparison of `consume_candidates` (the loads and
`data.simd_eq(self.pattern.bytes).bitand(self.pattern.mask)` check of
`src/scanner.rs` lines 384–398) at anchor-adjusted pointer `optr` with
`n` remaining bytes. -/
def verifyAt (B : Nat) (P : Pattern) (mem : Nat → Nat) (safe : Bool)
    (optr n : Nat) : Bool :=
  let dlm := dataLenMask B n
  let d := load mem safe optr dlm
  let result := eqMask B d P.bytes &&& P.mask
  let result := if safe then result &&& dlm else result
  result == P.mask

/-- `Scanner::consume_candidates` (`src/scanner.rs` lines 361–402).
Returns the yielded position (if any) and the remaining candidates mask.
The loop clears one candidate bit per round, so `B + 1` units of fuel are
enough for any mask `< 2 ^ B`; `lowBitAux B` is `trailing_zeros` for such
masks. -/
def consume (B : Nat) (P : Pattern) (mem : Nat → Nat) (addr len : Nat)
    (safe : Bool) : Nat → Nat → Nat → Option Nat × Nat
  | 0, cm, _ => (none, cm)
  | fuel + 1, cm, position =>
    if cm = 0 then (none, cm)
    else
      let off := lowBitAux B cm
      let cm' := cm ^^^ (1 <<< off)
      let offsetPtr := position + off - P.first_byte_offset
      let pos := offsetPtr - addr
      let n := len - pos
      if safe ∧ n < P.length then (none, cm')
      else if verifyAt B P mem safe offsetPtr n then (some pos, cm')
      else consume B P mem addr len safe fuel cm' position

/-- `Scanner::first_offset` (`src/scanner.rs` lines 105–116):
`align_offset` to a `BYTES` boundary, bumped so the aligned point lies
strictly beyond the first possible candidate. -/
def first_offset (A B : Nat) (P : Pattern) (addr : Nat) : Nat :=
  let a0 := (B - addr % B) % B
  let a0 := if a0 = 0 then B else a0
  let fp := a0 % A + P.first_byte_offset
  if a0 ≤ fp then a0 + B else a0

/-- `Scanner::initial_candidates` (`src/scanner.rs` lines 120–188).  The
left shift is `BytesMask = u64` arithmetic, hence the reduction modulo
`2 ^ 64`. -/
def initial_candidates (A B : Nat) (P : Pattern) (mem : Nat → Nat)
    (addr len : Nat) (ao : Nat) : Nat :=
  let da := ao % A
  if len - da < P.length then 0
  else
    let fp := da + P.first_byte_offset
    let mo := min ao len
    let r := build_candidates A B P mem true (addr + fp) (mo - fp)
    (r <<< (B + fp - ao)) % 2 ^ 64

/-- Scanner cursor state (`struct Scanner`, mutable part). -/
structure SState where
  cm : Nat
  position : Nat
  exhausted : Bool
deriving Repr

/-- `Scanner::new` for non-empty data (`src/scanner.rs` lines 55–100). -/
def initState (A B : Nat) (P : Pattern) (mem : Nat → Nat) (addr len : Nat) : SState :=
  let ao := first_offset A B P addr
  { cm := initial_candidates A B P mem addr len ao
    position := addr + ao - B
    exhausted := decide (endAddr B addr len ≤ addr + ao - B) }

/-- `Scanner::end_candidates` (`src/scanner.rs` lines 192–206). -/
def end_candidates (A B : Nat) (P : Pattern) (mem : Nat → Nat)
    (addr len position : Nat) : Nat :=
  build_candidates A B P mem true position (endAddr B addr len + 2 * B - position)

/-- `Scanner::end_search` (`src/scanner.rs` lines 210–220); only called
with `exhausted` set. -/
def end_search (A B : Nat) (P : Pattern) (mem : Nat → Nat) (addr len : Nat)
    (s : SState) : Option Nat × SState :=
  let r1 := consume B P mem addr len true (B + 1) s.cm s.position
  match r1.1 with
  | some p => (some p, ⟨r1.2, s.position, s.exhausted⟩)
  | none =>
    let s' : SState :=
      if s.position < endAddr B addr len + B then
        ⟨end_candidates A B P mem addr len (s.position + B), s.position + B, s.exhausted⟩
      else ⟨r1.2, s.position, s.exhausted⟩
    let r2 := consume B P mem addr len true (B + 1) s'.cm s'.position
    (r2.1, ⟨r2.2, s'.position, s'.exhausted⟩)

/-- The hot loop of `Scanner::next` (`src/scanner.rs` lines 240–301).
Each round moves `position` forward by `BYTES`, so `len + 1` units of fuel
always suffice. -/
def hotLoop (A B : Nat) (P : Pattern) (mem : Nat → Nat) (addr len : Nat) :
    Nat → SState → Option Nat × SState
  | 0, s => (none, s)
  | fuel + 1, s =>
    let r1 := consume B P mem addr len false (B + 1) s.cm s.position
    match r1.1 with
    | some p => (some p, ⟨r1.2, s.position, false⟩)
    | none =>
      let p' := s.position + B
      if endAddr B addr len ≤ p' then
        end_search A B P mem addr len
          ⟨build_candidates A B P mem false p' B, p', true⟩
      else hotLoop A B P mem addr len fuel
        ⟨build_candidates A B P mem false p' B, p', false⟩

/-- `Scanner::next` (`src/scanner.rs` lines 232–302). -/
def next (A B : Nat) (P : Pattern) (mem : Nat → Nat) (addr len : Nat)
    (s : SState) : Option Nat × SState :=
  if s.exhausted then end_search A B P mem addr len s
  else hotLoop A B P mem addr len (len + 1) s

/-- Collect the yields of repeated `next` calls.  Offsets are strictly
increasing and below `len`, so `len + 1` units of fuel exhaust the
iterator. -/
def run (A B : Nat) (P : Pattern) (mem : Nat → Nat) (addr len : Nat) :
    Nat → SState → List Nat
  | 0, _ => []
  | fuel + 1, s =>
    match next A B P mem addr len s with
    | (none, _) => []
    | (some o, s') => o :: run A B P mem addr len fuel s'

/-- All offsets yielded by `Scanner::new(pattern, data)` followed by
iteration to the end; empty data short-circuits in `Scanner::new`. -/
def scanYields (A B : Nat) (P : Pattern) (mem : Nat → Nat) (addr len : Nat) : List Nat :=
  if len = 0 then []
  else run A B P mem addr len (len + 1) (initState A B P mem addr len)

/-! ## Characterization of `find_first_byte_offset` -/

/-- The per-group fixed-byte counts that `find_first_byte_offset`'s loop
inspects, in order. -/
def groupCountsAux (A : Nat) : Nat → List Bool → List Nat
  | 0, _ => []
  | fuel + 1, mask =>
    if mask.length < A then []
    else (mask.take A).count true :: groupCountsAux A fuel (mask.drop A)

/-- The pure argmax fold underlying `ffboAux`: strict improvement updates
the recorded index. -/
def foldCounts : List Nat → Nat → Nat → Nat → Nat × Nat
  | [], _, s, h => (s, h)
  | c :: cs, i, s, h =>
    if c > h then foldCounts cs (i + 1) i c else foldCounts cs (i + 1) s h

theorem ffboAux_eq_foldCounts (A : Nat) (fuel : Nat) (mask : List Bool)
    (i s h : Nat) :
    ffboAux A fuel mask i s h = foldCounts (groupCountsAux A fuel mask) i s h := by
  induction fuel generalizing mask i s h with
  | zero => rfl
  | succ fuel ih =>
    rw [ffboAux, groupCountsAux]
    by_cases hlen : mask.length < A
    · simp [hlen, foldCounts]
    · simp only [hlen, if_false, foldCounts]
      by_cases hc : (mask.take A).count true > h <;> simp [hc, ih]

theorem foldCounts_snd (cs : List Nat) (i s h : Nat) :
    (foldCounts cs i s h).2 = cs.foldl max h := by
  induction cs generalizing i s h with
  | nil => rfl
  | cons c cs ih =>
    rw [foldCounts, List.foldl_cons]
    by_cases hc : c > h
    · rw [if_pos hc, ih, Nat.max_eq_right (by omega)]
    · rw [if_neg hc, ih, Nat.max_eq_left (by omega)]

theorem le_foldl_max (cs : List Nat) (h : Nat) : h ≤ cs.foldl max h := by
  induction cs generalizing h with
  | nil => exact Nat.le_refl h
  | cons c cs ih => exact le_trans (Nat.le_max_left h c) (ih (max h c))

theorem foldCounts_fst (cs : List Nat) (i s h : Nat) :
    (h < cs.foldl max h →
      ∃ g < cs.length, (foldCounts cs i s h).1 = i + g ∧
        cs.getD g 0 = cs.foldl max h ∧
        ∀ g' < g, cs.getD g' 0 < cs.foldl max h) ∧
    (cs.foldl max h ≤ h → (foldCounts cs i s h).1 = s) := by
  induction cs generalizing i s h with
  | nil => exact ⟨fun hlt => absurd hlt (by simp), fun _ => rfl⟩
  | cons c cs ih =>
    rw [List.foldl_cons, foldCounts]
    by_cases hc : c > h
    · rw [if_pos hc, Nat.max_eq_right (by omega)]
      constructor
      · intro _
        rcases Nat.lt_or_ge c (cs.foldl max c) with hlt | hge
        · obtain ⟨g, hg, h1, h2, h3⟩ := (ih (i + 1) i c).1 hlt
          refine ⟨g + 1, by simpa using hg, by omega, by simpa using h2, ?_⟩
          intro g' hg'
          cases g' with
          | zero => simpa using hlt
          | succ g' => simpa using h3 g' (by omega)
        · have heq : c = cs.foldl max c := le_antisymm (le_foldl_max cs c) hge
          refine ⟨0, by simp, ?_, by simpa using heq, by omega⟩
          rw [(ih (i + 1) i c).2 hge]
          omega
      · intro hle
        have := le_foldl_max cs c
        omega
    · rw [if_neg hc, Nat.max_eq_left (by omega)]
      constructor
      · intro hlt
        obtain ⟨g, hg, h1, h2, h3⟩ := (ih (i + 1) s h).1 hlt
        refine ⟨g + 1, by simpa using hg, by omega, by simpa using h2, ?_⟩
        intro g' hg'
        cases g' with
        | zero => simp; omega
        | succ g' => simpa using h3 g' (by omega)
      · exact (ih (i + 1) s h).2

/-- Fixed-byte count of alignment group `g` of the mask array. -/
def groupCount (A : Nat) (mask : List Bool) (g : Nat) : Nat :=
  ((mask.drop (g * A)).take A).count true

theorem div_sub_self (A n : Nat) (hA : 0 < A) (h : A ≤ n) :
    (n - A) / A = n / A - 1 := by
  have h1 := Nat.div_add_mod n A
  have hq : 1 ≤ n / A := (Nat.one_le_div_iff hA).mpr h
  have h2 : n - A = A * (n / A - 1) + n % A := by
    have h3 : n / A = (n / A - 1) + 1 := by omega
    have h4 : A * (n / A) = A * (n / A - 1) + A := by
      calc A * (n / A) = A * ((n / A - 1) + 1) := by rw [← h3]
        _ = A * (n / A - 1) + A := by ring
    omega
  rw [h2, Nat.mul_add_div hA, Nat.div_eq_of_lt (Nat.mod_lt n hA)]
  omega

theorem groupCountsAux_length (A : Nat) (hA : 0 < A) (fuel : Nat)
    (mask : List Bool) (hfuel : mask.length < fuel * A) :
    (groupCountsAux A fuel mask).length = mask.length / A := by
  induction fuel generalizing mask with
  | zero => omega
  | succ fuel ih =>
    rw [groupCountsAux]
    by_cases hlen : mask.length < A
    · simp [Nat.div_eq_of_lt hlen, hlen]
    · push_neg at hlen
      rw [if_neg (by omega), List.length_cons,
        ih _ (by rw [List.length_drop]; rw [Nat.succ_mul] at hfuel; omega),
        List.length_drop, div_sub_self A _ hA hlen]
      have hq : 1 ≤ mask.length / A := (Nat.one_le_div_iff hA).mpr hlen
      omega

theorem groupCountsAux_getD (A : Nat) (hA : 0 < A) (fuel : Nat)
    (mask : List Bool) (hfuel : mask.length < fuel * A) (g : Nat)
    (hg : g < mask.length / A) :
    (groupCountsAux A fuel mask).getD g 0 = groupCount A mask g := by
  induction fuel generalizing mask g with
  | zero => omega
  | succ fuel ih =>
    have hlen : ¬ mask.length < A := by
      intro hlt
      rw [Nat.div_eq_of_lt hlt] at hg
      omega
    rw [groupCountsAux, if_neg hlen]
    cases g with
    | zero => simp [groupCount]
    | succ g =>
      have hdrop : mask.length - A < fuel * A := by
        rw [Nat.succ_mul] at hfuel; omega
      push_neg at hlen
      have hg' : (mask.drop A).length / A > g := by
        rw [List.length_drop, div_sub_self A _ hA hlen]
        have hq : 1 ≤ mask.length / A := (Nat.one_le_div_iff hA).mpr hlen
        omega
      rw [List.getD_cons_succ, ih _ (by rw [List.length_drop]; exact hdrop) _ hg']
      rw [groupCount, groupCount, List.drop_drop]
      congr 2
      ring

theorem mem_le_foldl_max (cs : List Nat) (x : Nat) (hx : x ∈ cs) (h : Nat) :
    x ≤ cs.foldl max h := by
  induction cs generalizing h with
  | nil => cases hx
  | cons c cs ih =>
    rw [List.foldl_cons]
    rcases List.mem_cons.mp hx with rfl | hx'
    · exact le_trans (Nat.le_max_right h x) (le_foldl_max cs _)
    · exact ih hx' _

theorem foldl_max_zero_iff (cs : List Nat) :
    cs.foldl max 0 = 0 ↔ ∀ x ∈ cs, x = 0 := by
  constructor
  · intro h x hx
    have := mem_le_foldl_max cs x hx 0
    omega
  · intro h
    induction cs with
    | nil => rfl
    | cons c cs ih =>
      rw [List.foldl_cons, h c (by simp), Nat.max_self]
      exact ih (fun x hx => h x (by simp [hx]))

theorem getD_mem_of_lt (cs : List Nat) (g : Nat) (hg : g < cs.length) :
    cs.getD g 0 ∈ cs := by
  rw [List.getD_eq_getElem cs 0 hg]
  exact List.getElem_mem hg

/-- `find_first_byte_offset` errors (panics through `from_slice`'s
`unwrap`) exactly when every complete alignment group is all-wildcard. -/
theorem ffbo_err_iff (A : Nat) (hA : 0 < A) (mask : List Bool) :
    find_first_byte_offset A mask = .error .MissingNonWildcardByte ↔
      ∀ g < mask.length / A, groupCount A mask g = 0 := by
  have hfuel : mask.length < (mask.length + 1) * A :=
    lt_of_lt_of_le (by omega) (Nat.le_mul_of_pos_right _ hA)
  have hcs := ffboAux_eq_foldCounts A (mask.length + 1) mask 0 0 0
  have hlen := groupCountsAux_length A hA (mask.length + 1) mask hfuel
  rw [find_first_byte_offset]
  simp only [hcs, foldCounts_snd]
  set cs := groupCountsAux A (mask.length + 1) mask with hcsdef
  constructor
  · intro h g hg
    have h0 : cs.foldl max 0 = 0 := by
      by_contra hc
      simp [hc] at h
    rw [← groupCountsAux_getD A hA (mask.length + 1) mask hfuel g hg, ← hcsdef]
    exact (foldl_max_zero_iff cs).mp h0 _ (getD_mem_of_lt cs g (by omega))
  · intro h
    have h0 : cs.foldl max 0 = 0 := by
      rw [foldl_max_zero_iff]
      intro x hx
      obtain ⟨g, hg, rfl⟩ := List.getElem_of_mem hx
      have hgD : cs.getD g 0 = cs[g] := List.getD_eq_getElem cs 0 hg
      rw [← hgD, hcsdef, groupCountsAux_getD A hA (mask.length + 1) mask hfuel g (by omega)]
      exact h g (by omega)
    simp [h0]

/-- `find_first_byte_offset` success: the result is `A` times the index of
the first alignment group attaining the (positive) maximal fixed count. -/
theorem ffbo_ok_spec (A : Nat) (hA : 0 < A) (mask : List Bool) (r : Nat)
    (h : find_first_byte_offset A mask = .ok r) :
    ∃ g, r = g * A ∧ g < mask.length / A ∧ 0 < groupCount A mask g ∧
      (∀ g' < mask.length / A, groupCount A mask g' ≤ groupCount A mask g) ∧
      (∀ g' < g, groupCount A mask g' < groupCount A mask g) := by
  have hfuel : mask.length < (mask.length + 1) * A :=
    lt_of_lt_of_le (by omega) (Nat.le_mul_of_pos_right _ hA)
  have hcs := ffboAux_eq_foldCounts A (mask.length + 1) mask 0 0 0
  have hlen := groupCountsAux_length A hA (mask.length + 1) mask hfuel
  rw [find_first_byte_offset] at h
  simp only [hcs] at h
  set cs := groupCountsAux A (mask.length + 1) mask with hcsdef
  by_cases hz : (foldCounts cs 0 0 0).2 = 0
  · simp [hz] at h
  · rw [foldCounts_snd] at hz
    simp only [foldCounts_snd, hz, if_false, Except.ok.injEq] at h
    have hpos : 0 < cs.foldl max 0 := by omega
    obtain ⟨g, hg, h1, h2, h3⟩ := (foldCounts_fst cs 0 0 0).1 hpos
    have hgetD : ∀ g' < mask.length / A, cs.getD g' 0 = groupCount A mask g' := by
      intro g' hg'
      exact groupCountsAux_getD A hA (mask.length + 1) mask hfuel g' hg'
    refine ⟨g, by rw [← h, h1]; ring, by omega, ?_, ?_, ?_⟩
    · rw [← hgetD g (by omega), h2]; exact hpos
    · intro g' hg'
      rw [← hgetD g' hg', ← hgetD g (by omega), h2]
      exact mem_le_foldl_max cs _ (getD_mem_of_lt cs g' (by omega)) 0
    · intro g' hg'
      rw [← hgetD g' (by omega), ← hgetD g (by omega), h2]
      exact h3 g' hg'

theorem count_take_drop (l : List Bool) (n k : Nat) (h : n + k ≤ l.length) :
    ((l.drop n).take k).count true =
      (List.range k).countP (fun j => l.getD (n + j) false) := by
  induction k generalizing n with
  | zero => simp
  | succ k ih =>
    have hn : n < l.length := by omega
    rw [List.drop_eq_getElem_cons hn, List.take_succ_cons, List.count_cons,
      List.range_succ_eq_map, List.countP_cons, List.countP_map]
    have hgetD : l.getD (n + 0) false = l[n] := by
      rw [Nat.add_zero]
      exact List.getD_eq_getElem l false hn
    have hih := ih (n + 1) (by omega)
    have hcomp : ((List.range k).countP ((fun j => l.getD (n + j) false) ∘ Nat.succ))
        = (List.range k).countP (fun j => l.getD (n + 1 + j) false) := by
      apply List.countP_congr
      intro j _
      simp only [Function.comp_apply]
      rw [show n + Nat.succ j = n + 1 + j by omega]
    rw [hcomp, ← hih, hgetD]
    cases hb : l[n] <;> simp [hb, Nat.add_comm]

/-- Fixed-position count of alignment group `g` in bitmask view. -/
def bitGroupCount (A m g : Nat) : Nat :=
  ((List.range A).filter (fun j => m.testBit (g * A + j))).length

theorem parseToks_lengths (toks : List (List Nat)) (idx : Nat)
    (buffer : List Nat) (mask : List Bool) (b' : List Nat) (m' : List Bool)
    (h : parseToks toks idx buffer mask = .ok (b', m')) :
    b'.length = buffer.length ∧ m'.length = mask.length := by
  induction toks generalizing idx buffer mask with
  | nil =>
    rw [parseToks] at h
    cases h
    exact ⟨rfl, rfl⟩
  | cons t ts ih =>
    rw [parseToks] at h
    by_cases hw : is_wildcard t
    · rw [if_pos hw] at h
      exact ih _ _ _ h
    · rw [if_neg hw] at h
      cases hx : hex_to_u8 t with
      | none => rw [hx] at h; cases h
      | some v =>
        rw [hx] at h
        obtain ⟨h1, h2⟩ := ih _ _ _ h
        simp at h1 h2
        exact ⟨h1, h2⟩

/-- Inversion of a successful `Pattern::from_str`. -/
theorem from_str_ok_inv (A B : Nat) (s : List Nat) (P : Pattern)
    (h : from_str A B s = .ok P) :
    ∃ buffer mask,
      (tokens s).length ≤ B ∧
      parseToks (tokens s) 0 (List.replicate B 0) (List.replicate B false) =
        .ok (buffer, mask) ∧
      find_first_byte_offset A mask = .ok P.first_byte_offset ∧
      buffer.length = B ∧ mask.length = B ∧
      P.bytes = (fun i => buffer.getD i 0) ∧
      P.mask = bitsOf B (fun i => mask.getD i false) ∧
      P.length = (tokens s).length ∧
      P.first_bytes =
        (fill_first_bytes A B (buffer.drop P.first_byte_offset)
          (mask.drop P.first_byte_offset)).1 ∧
      P.first_bytes_mask =
        (fill_first_bytes A B (buffer.drop P.first_byte_offset)
          (mask.drop P.first_byte_offset)).2 := by
  rw [from_str] at h
  by_cases hlen : (tokens s).length > B
  · rw [if_pos hlen] at h; cases h
  · rw [if_neg hlen] at h
    cases hp : parseToks (tokens s) 0 (List.replicate B 0) (List.replicate B false) with
    | error e => rw [hp] at h; cases h
    | ok bm =>
      obtain ⟨buffer, mask⟩ := bm
      rw [hp] at h
      dsimp only at h
      cases hf : find_first_byte_offset A mask with
      | error e => rw [hf] at h; cases h
      | ok fbo =>
        rw [hf] at h
        dsimp only at h
        cases h
        obtain ⟨hb, hm⟩ := parseToks_lengths _ _ _ _ _ _ hp
        simp only [List.length_replicate] at hb hm
        exact ⟨buffer, mask, by omega, rfl, hf, hb, hm, rfl, rfl, rfl, rfl, rfl⟩

theorem bitGroupCount_eq_groupCount (A B : Nat) (mask : List Bool)
    (hm : mask.length = B) (g : Nat) (hg : (g + 1) * A ≤ B) :
    bitGroupCount A (bitsOf B (fun i => mask.getD i false)) g =
      groupCount A mask g := by
  have hsum : g * A + A ≤ mask.length := by
    rw [hm]
    calc g * A + A = (g + 1) * A := by ring
      _ ≤ B := hg
  rw [bitGroupCount, groupCount, ← List.countP_eq_length_filter,
    count_take_drop mask (g * A) A hsum]
  apply List.countP_congr
  intro j hj
  rw [List.mem_range] at hj
  rw [testBit_bitsOf]
  have : g * A + j < B := by
    have : g * A + A ≤ B := by
      calc g * A + A = (g + 1) * A := by ring
        _ ≤ B := hg
    omega
  simp [this]

/-- C8, corrected.  Helper combining `from_str` inversion with the
`find_first_byte_offset` characterization. -/
theorem anchor_group_argmax (A B : Nat) (hA : 0 < A) (s : List Nat)
    (P : Pattern) (h : from_str A B s = .ok P) :
    ∃ g, P.first_byte_offset = g * A ∧ g < B / A ∧
      0 < bitGroupCount A P.mask g ∧
      (∀ g' < B / A, bitGroupCount A P.mask g' ≤ bitGroupCount A P.mask g) ∧
      (∀ g' < g, bitGroupCount A P.mask g' < bitGroupCount A P.mask g) := by
  obtain ⟨buffer, mask, htoks, hp, hf, hb, hm, hbytes, hmask, hplen, hfb, hfbm⟩ :=
    from_str_ok_inv A B s P h
  obtain ⟨g, hg1, hg2, hg3, hg4, hg5⟩ := ffbo_ok_spec A hA mask _ hf
  rw [hm] at hg2 hg4
  have hcnt : ∀ g' < B / A, bitGroupCount A P.mask g' = groupCount A mask g' := by
    intro g' hg'
    rw [hmask]
    apply bitGroupCount_eq_groupCount A B mask hm
    calc (g' + 1) * A ≤ (B / A) * A := by
          have : g' + 1 ≤ B / A := hg'
          exact Nat.mul_le_mul_right A this
      _ ≤ B := Nat.div_mul_le_self B A
  refine ⟨g, hg1, hg2, ?_, ?_, ?_⟩
  · rw [hcnt g hg2]; exact hg3
  · intro g' hg'
    rw [hcnt g' hg', hcnt g hg2]
    exact hg4 g' hg'
  · intro g' hg'
    rw [hcnt g' (by omega), hcnt g hg2]
    exact hg5 g' hg'

/-! ## Parser classification (C9 machinery) -/

theorem getD_set {α : Type} (l : List α) (i j : Nat) (a d : α) :
    (l.set i a).getD j d = if i = j ∧ j < l.length then a else l.getD j d := by
  by_cases hj : j < l.length
  · have hj' : j < (l.set i a).length := by simpa using hj
    rw [List.getD_eq_getElem _ _ hj', List.getElem_set, List.getD_eq_getElem _ _ hj]
    by_cases hij : i = j <;> simp [hij, hj]
  · have h1 : (l.set i a).length ≤ j := by simp; omega
    rw [List.getD_eq_default _ _ h1, List.getD_eq_default _ _ (by omega)]
    have h2 : ¬(i = j ∧ j < l.length) := by omega
    rw [if_neg h2]

theorem parseToks_ok_iff (toks : List (List Nat)) (idx : Nat)
    (buffer : List Nat) (mask : List Bool) :
    (parseToks toks idx buffer mask).isOk = true ↔
      ∀ t ∈ toks, is_wildcard t = false → (hex_to_u8 t).isSome = true := by
  induction toks generalizing idx buffer mask with
  | nil => simp [parseToks, Except.isOk, Except.toBool]
  | cons t ts ih =>
    rw [parseToks]
    by_cases hw : is_wildcard t
    · rw [if_pos hw, ih]
      constructor
      · intro h t' ht' hwt'
        rcases List.mem_cons.mp ht' with rfl | h2
        · rw [hw] at hwt'; cases hwt'
        · exact h t' h2 hwt'
      · intro h t' ht' hwt'
        exact h t' (by simp [ht']) hwt'
    · rw [if_neg hw]
      cases hx : hex_to_u8 t with
      | none =>
        simp only [Except.isOk, Except.toBool]
        constructor
        · intro h; cases h
        · intro h
          have := h t (by simp) (by simpa using hw)
          rw [hx] at this
          cases this
      | some v =>
        rw [ih]
        constructor
        · intro h t' ht' hwt'
          rcases List.mem_cons.mp ht' with rfl | h2
          · rw [hx]; rfl
          · exact h t' h2 hwt'
        · intro h t' ht' hwt'
          exact h t' (by simp [ht']) hwt'

theorem parseToks_mask (toks : List (List Nat)) (idx : Nat)
    (buffer : List Nat) (mask : List Bool) (b' : List Nat) (m' : List Bool)
    (h : parseToks toks idx buffer mask = .ok (b', m'))
    (hidx : idx + toks.length ≤ mask.length) (j : Nat) :
    m'.getD j false = true ↔
      (mask.getD j false = true ∨
        ∃ k < toks.length, idx + k = j ∧ is_wildcard (toks.getD k []) = false) := by
  induction toks generalizing idx buffer mask with
  | nil =>
    rw [parseToks] at h
    cases h
    simp
  | cons t ts ih =>
    rw [parseToks] at h
    simp only [List.length_cons] at hidx
    by_cases hw : is_wildcard t
    · rw [if_pos hw] at h
      rw [ih _ _ _ h (by omega) ]
      constructor
      · rintro (hm | ⟨k, hk, rfl, hkw⟩)
        · exact Or.inl hm
        · exact Or.inr ⟨k + 1, by simpa using hk, by omega, by simpa using hkw⟩
      · rintro (hm | ⟨k, hk, rfl, hkw⟩)
        · exact Or.inl hm
        · cases k with
          | zero =>
            rw [List.getD_cons_zero] at hkw
            rw [hw] at hkw
            cases hkw
          | succ k =>
            exact Or.inr ⟨k, by simpa using hk, by omega, by simpa using hkw⟩
    · rw [if_neg hw] at h
      cases hx : hex_to_u8 t with
      | none => rw [hx] at h; cases h
      | some v =>
        rw [hx] at h
        rw [ih _ _ _ h (by simp only [List.length_set]; omega)]
        rw [getD_set]
        constructor
        · intro hc
          rcases hc with hm | ⟨k, hk, rfl, hkw⟩
          · by_cases hij : idx = j ∧ j < mask.length
            · exact Or.inr ⟨0, by simp, by omega, by simpa using hw⟩
            · rw [if_neg hij] at hm
              exact Or.inl hm
          · exact Or.inr ⟨k + 1, by simpa using hk, by omega, by simpa using hkw⟩
        · rintro (hm | ⟨k, hk, rfl, hkw⟩)
          · left
            by_cases hij : idx = j ∧ j < mask.length
            · rw [if_pos hij]
            · rw [if_neg hij]; exact hm
          · cases k with
            | zero =>
              left
              rw [if_pos ⟨by omega, by omega⟩]
            | succ k =>
              exact Or.inr ⟨k, by simpa using hk, by omega, by simpa using hkw⟩

theorem all_groups_zero_iff (A B : Nat) (mask : List Bool) (hA : 0 < A)
    (hAB : A ∣ B) (hm : mask.length = B) :
    (∀ g < B / A, groupCount A mask g = 0) ↔
      ∀ j < B, mask.getD j false = false := by
  have hBA : B / A * A = B := Nat.div_mul_cancel hAB
  constructor
  · intro h j hj
    have hg : j / A < B / A := by
      apply Nat.div_lt_div_of_lt_of_dvd hAB hj
    have := h (j / A) hg
    rw [groupCount, count_take_drop mask _ _ (by
      rw [hm]
      have h1 : (j / A + 1) * A ≤ B / A * A :=
        Nat.mul_le_mul_right A hg
      calc j / A * A + A = (j / A + 1) * A := by ring
        _ ≤ B / A * A := h1
        _ = B := hBA)] at this
    rw [List.countP_eq_zero] at this
    have hj2 := this (j % A) (by simp [Nat.mod_lt _ hA])
    have hj3 : j / A * A + j % A = j := by
      rw [Nat.mul_comm]
      exact Nat.div_add_mod j A
    rw [hj3] at hj2
    simpa using hj2
  · intro h g hg
    rw [groupCount, count_take_drop mask _ _ (by
      rw [hm]
      have h1 : (g + 1) * A ≤ B / A * A := Nat.mul_le_mul_right A hg
      calc g * A + A = (g + 1) * A := by ring
        _ ≤ B / A * A := h1
        _ = B := hBA)]
    rw [List.countP_eq_zero]
    intro j hj
    rw [List.mem_range] at hj
    have : g * A + j < B := by
      have h1 : (g + 1) * A ≤ B / A * A := Nat.mul_le_mul_right A hg
      have : g * A + A ≤ B := by
        calc g * A + A = (g + 1) * A := by ring
          _ ≤ B / A * A := h1
          _ = B := hBA
      omega
    simpa [List.getD] using h _ this

/-- Exact success condition of `Pattern::from_str` on the byte sequence of
the input string: at most `BYTES` tokens (as produced by the early-stopping
tokenizer), every non-wildcard token parses as two hex digits, and at
least one token is non-wildcard — wildcardness being the bit test
`first_byte & 0x2E == 0x2E` of `const_utils::is_wildcard`. -/
theorem from_str_isOk_iff (A B : Nat) (hA : 0 < A) (hAB : A ∣ B) (s : List Nat) :
    (from_str A B s).isOk = true ↔
      ((tokens s).length ≤ B ∧
        (∀ t ∈ tokens s, is_wildcard t = false → (hex_to_u8 t).isSome = true) ∧
        (∃ t ∈ tokens s, is_wildcard t = false)) := by
  rw [from_str]
  by_cases hlen : (tokens s).length > B
  · rw [if_pos hlen]
    simp only [Except.isOk, Except.toBool]
    constructor
    · intro h; cases h
    · intro h; omega
  · rw [if_neg hlen]
    cases hp : parseToks (tokens s) 0 (List.replicate B 0) (List.replicate B false) with
    | error e =>
      have h2 := parseToks_ok_iff (tokens s) 0 (List.replicate B 0) (List.replicate B false)
      rw [hp] at h2
      simp only [Except.isOk, Except.toBool] at h2 ⊢
      constructor
      · intro h; cases h
      · rintro ⟨_, hall, _⟩
        exact absurd (h2.mpr hall) (by simp)
    | ok bm =>
      obtain ⟨buffer, mask⟩ := bm
      obtain ⟨hb, hm⟩ := parseToks_lengths _ _ _ _ _ _ hp
      simp only [List.length_replicate] at hb hm
      have hall : ∀ t ∈ tokens s, is_wildcard t = false → (hex_to_u8 t).isSome = true := by
        have h2 := parseToks_ok_iff (tokens s) 0 (List.replicate B 0) (List.replicate B false)
        rw [hp] at h2
        exact h2.mp rfl
      have hmaskbit : ∀ j, mask.getD j false = true ↔
          ∃ k < (tokens s).length, 0 + k = j ∧
            is_wildcard ((tokens s).getD k []) = false := by
        intro j
        rw [parseToks_mask _ _ _ _ _ _ hp (by simp; omega) j]
        have hrep : (List.replicate B false).getD j false = false := by
          by_cases hj : j < B
          · rw [List.getD_eq_getElem _ _ (by simpa using hj)]
            simp
          · rw [List.getD_eq_default _ _ (by simpa using hj)]
        simp [hrep]
      have hfix : (∃ j < B, mask.getD j false = true) ↔
          (∃ t ∈ tokens s, is_wildcard t = false) := by
        constructor
        · rintro ⟨j, _, hj⟩
          obtain ⟨k, hk, _, hkw⟩ := (hmaskbit j).mp hj
          refine ⟨(tokens s).getD k [], ?_, hkw⟩
          rw [List.getD_eq_getElem _ _ hk]
          exact List.getElem_mem hk
        · rintro ⟨t, ht, htw⟩
          obtain ⟨k, hk, rfl⟩ := List.mem_iff_getElem.mp ht
          refine ⟨k, by omega, (hmaskbit k).mpr ⟨k, hk, by omega, ?_⟩⟩
          rw [List.getD_eq_getElem _ _ hk]
          exact htw
      dsimp only
      cases hf : find_first_byte_offset A mask with
      | error e =>
        have herr : find_first_byte_offset A mask = .error .MissingNonWildcardByte := by
          rw [find_first_byte_offset] at hf ⊢
          by_cases hz : (ffboAux A (mask.length + 1) mask 0 0 0).2 = 0
          · rw [if_pos hz]
          · rw [if_neg hz] at hf; cases hf
        have hzero := (ffbo_err_iff A hA mask).mp herr
        rw [hm] at hzero
        rw [all_groups_zero_iff A B mask hA hAB hm] at hzero
        simp only [Except.isOk, Except.toBool]
        constructor
        · intro h; cases h
        · rintro ⟨_, _, hex⟩
          obtain ⟨j, hjB, hj⟩ := hfix.mpr hex
          rw [hzero j hjB] at hj
          cases hj
      | ok fbo =>
        simp only [Except.isOk, Except.toBool]
        constructor
        · intro _
          refine ⟨by omega, hall, ?_⟩
          apply hfix.mp
          obtain ⟨g, _, hg2, hg3, _, _⟩ := ffbo_ok_spec A hA mask fbo hf
          rw [groupCount, count_take_drop mask _ _ ?hbound] at hg3
          case hbound =>
            rw [hm]
            have h1 : (g + 1) * A ≤ B / A * A :=
              Nat.mul_le_mul_right A (by rwa [hm] at hg2)
            have h2 : B / A * A = B := Nat.div_mul_cancel hAB
            calc g * A + A = (g + 1) * A := by ring
              _ ≤ B / A * A := h1
              _ = B := h2
          rw [List.countP_pos_iff] at hg3
          obtain ⟨j, hjmem, hjp⟩ := hg3
          rw [List.mem_range] at hjmem
          refine ⟨g * A + j, ?_, by simpa using hjp⟩
          have h1 : (g + 1) * A ≤ B / A * A :=
            Nat.mul_le_mul_right A (by rwa [hm] at hg2)
          have h2 : B / A * A = B := Nat.div_mul_cancel hAB
          have : g * A + A ≤ B := by
            calc g * A + A = (g + 1) * A := by ring
              _ ≤ B / A * A := h1
              _ = B := h2
          omega
        · intro _; trivial

/-! ## `from_slice` panic characterization (C10 machinery) -/

/-- Bit `63 - j` of the trimmed mask is "position `j` is retained and
marked fixed": the trim keeps the high `length` bits of the `u64`, and
`reverse_bits` sends position `j` to bit `63 - j`. -/
theorem trimmed_testBit (length mask j : Nat) (hj : j < 64) :
    ((((2 ^ 64 - 1) >>> length) ^^^ (2 ^ 64 - 1)) &&& mask).testBit (63 - j) =
      (decide (j < length) && mask.testBit (63 - j)) := by
  rw [Nat.testBit_land, Nat.testBit_xor, Nat.testBit_shiftRight,
    Nat.testBit_two_pow_sub_one, Nat.testBit_two_pow_sub_one]
  have h2 : 63 - j < 64 := by omega
  by_cases h : j < length
  · have h3 : ¬(length + (63 - j) < 64) := by omega
    simp [h, h2, h3]
  · have h3 : length + (63 - j) < 64 := by omega
    simp [h, h2, h3]

theorem sliceMaskList_getD (B length mask j : Nat) (hj : j < B) (hB : B ≤ 64) :
    (sliceMaskList B length mask).getD j false =
      (decide (j < length) && mask.testBit (63 - j)) := by
  rw [sliceMaskList, List.getD_eq_getElem _ _ (by simpa using hj)]
  simp only [List.getElem_map, List.getElem_range]
  exact trimmed_testBit length mask j (by omega)

/-- C10: `from_slice` returns no error value (its result type models
panics as `none`), and it panics whenever no retained position is a fixed
byte — in particular on an empty slice or an all-wildcard mask.  For
inputs within the `BYTES` bound this is exact: it panics *iff* no
retained position is fixed. -/
theorem from_slice_none_iff (A B : Nat) (hA : 0 < A) (hAB : A ∣ B)
    (hB : B ≤ 64) (bytes : List Nat) (mask : Nat) :
    ((∀ j < min bytes.length B, mask.testBit (63 - j) = false) →
      from_slice A B bytes mask = none) ∧
    (bytes.length ≤ B →
      (from_slice A B bytes mask = none ↔
        ∀ j < bytes.length, mask.testBit (63 - j) = false)) := by
  have hml : ∀ len, (sliceMaskList B len mask).length = B := by
    intro len; simp [sliceMaskList]
  have key : ∀ len, len ≤ B →
      ((find_first_byte_offset A (sliceMaskList B len mask)).isOk = false ↔
        ∀ j < len, mask.testBit (63 - j) = false) := by
    intro len hlen
    have herr : (find_first_byte_offset A (sliceMaskList B len mask)).isOk = false ↔
        find_first_byte_offset A (sliceMaskList B len mask) =
          .error .MissingNonWildcardByte := by
      rw [find_first_byte_offset]
      by_cases hz : (ffboAux A ((sliceMaskList B len mask).length + 1)
          (sliceMaskList B len mask) 0 0 0).2 = 0
      · simp [hz, Except.isOk, Except.toBool]
      · simp [hz, Except.isOk, Except.toBool]
    rw [herr, ffbo_err_iff A hA, hml,
      all_groups_zero_iff A B _ hA hAB (hml len)]
    constructor
    · intro h j hj
      have := h j (by omega)
      rw [sliceMaskList_getD B len mask j (by omega) hB] at this
      simpa [hj] using this
    · intro h j hj
      rw [sliceMaskList_getD B len mask j hj hB]
      by_cases hjl : j < len
      · simp [hjl, h j hjl]
      · simp [hjl]
  constructor
  · intro hwild
    rw [from_slice]
    by_cases hlong : bytes.length > B
    · rw [if_pos hlong]
    · rw [if_neg hlong]
      have hmin : min bytes.length B = bytes.length := by omega
      have hiff := key bytes.length (by omega)
      have herr : (find_first_byte_offset A
          (sliceMaskList B bytes.length mask)).isOk = false := by
        rw [hiff]
        intro j hj
        exact hwild j (by omega)
      dsimp only
      rw [hmin]
      cases hf : find_first_byte_offset A (sliceMaskList B bytes.length mask) with
      | error e => rfl
      | ok fbo => rw [hf] at herr; simp [Except.isOk, Except.toBool] at herr
  · intro hlen
    rw [from_slice, if_neg (by omega)]
    have hmin : min bytes.length B = bytes.length := by omega
    have hiff := key bytes.length hlen
    dsimp only
    rw [hmin]
    cases hf : find_first_byte_offset A (sliceMaskList B bytes.length mask) with
    | error e =>
      rw [hf] at hiff
      simp only [Except.isOk, Except.toBool] at hiff
      simpa using hiff.mp trivial
    | ok fbo =>
      rw [hf] at hiff
      simp only [Except.isOk, Except.toBool] at hiff
      constructor
      · intro h; cases h
      · intro h
        have := hiff.mpr h
        cases this

/-! ## Claim theorems C7 – C10 -/

/-- C7: for every chunk-width bitmask `m` and every alignment
`a ∈ {1, 2, 4, 8, 16, 32, 64}` (all `≤ B = 64`), the reduce-by-alignment
utility (`Scanner::reduce_bitmask`) is defined and returns a mask whose
bit `i` is set iff bits `i, i+1, …, i+a-1` of `m` are all set and
`i % a = 0`; in particular only multiples of `a` (below the chunk width)
can remain set. -/
theorem claim_C7_reduce_by_alignment (a m i : Nat)
    (ha : a = 1 ∨ a = 2 ∨ a = 4 ∨ a = 8 ∨ a = 16 ∨ a = 32 ∨ a = 64) :
    (i < 64 → (reduceBitmask a 64 m).testBit i =
      decide (i % a = 0 ∧ ∀ j < a, m.testBit (i + j) = true)) ∧
    (64 ≤ i → (reduceBitmask a 64 m).testBit i = false) := by
  have hspec := testBit_reduceBitmask a 64 m i ha
  have hdiv : 64 / a * a = 64 := by
    rcases ha with rfl | rfl | rfl | rfl | rfl | rfl | rfl <;> norm_num
  rw [hdiv] at hspec
  constructor
  · intro hi
    rw [hspec]
    simp [hi]
  · intro hi
    rw [hspec]
    have : ¬(i < 64 ∧ i % a = 0 ∧ ∀ j < a, m.testBit (i + j) = true) := by
      rintro ⟨h1, _⟩; omega
    simp [this]

theorem claim_C7_witness :
    ((4 < 64 → (reduceBitmask 4 64 0xF0).testBit 4 =
      decide (4 % 4 = 0 ∧ ∀ j < 4, (0xF0 : Nat).testBit (4 + j) = true)) ∧
     (64 ≤ 4 → (reduceBitmask 4 64 0xF0).testBit 4 = false)) ∧
    (reduceBitmask 4 64 0xF0).testBit 4 = true :=
  ⟨claim_C7_reduce_by_alignment 4 0xF0 4 (by norm_num),
   by
    rw [(claim_C7_reduce_by_alignment 4 0xF0 4 (by norm_num)).1 (by norm_num)]
    decide⟩

theorem bitGroupCount_one (m g : Nat) :
    bitGroupCount 1 m g = if m.testBit g then 1 else 0 := by
  rw [bitGroupCount, show List.range 1 = [0] from rfl]
  by_cases h : m.testBit (g * 1 + 0)
  · rw [List.filter_cons]
    simp only [h, List.filter_nil]
    simp only [Nat.mul_one, Nat.add_zero] at h
    simp [h]
  · rw [List.filter_cons]
    simp only [h, List.filter_nil]
    simp only [Nat.mul_one, Nat.add_zero] at h
    simp [h]

set_option maxRecDepth 100000 in
/-- C8 counterexample: the pattern `"? 41"` compiled at alignment 2
yields `first_byte_offset = 0`, which is a wildcard (masked-out)
position — refuting "the chosen anchor offset is always a fixed
(non-wildcard) position, … within that group the lowest fixed
position". -/
theorem claim_C8_counterexample :
    ((from_str 2 64 [0x3F, 0x20, 0x34, 0x31]).toOption.map
      (fun P => (P.first_byte_offset, P.mask.testBit P.first_byte_offset)))
      = some (0, false) := by decide

/-- C8 (amended): the anchor offset is `ALIGNMENT` times the index of the
first alignment-sized group with the strictly greatest number of fixed
positions; that group contains at least one fixed position, but the
offset itself — the group's first lane — need not be fixed when
`ALIGNMENT > 1`.  For `ALIGNMENT = 1` it is exactly the lowest fixed
position. -/
theorem claim_C8_anchor_selection (A B : Nat) (hA : 0 < A) (s : List Nat)
    (P : Pattern) (h : from_str A B s = .ok P) :
    P.first_byte_offset % A = 0 ∧
    (∃ g, P.first_byte_offset = g * A ∧ g < B / A ∧
      0 < bitGroupCount A P.mask g ∧
      (∀ g' < B / A, bitGroupCount A P.mask g' ≤ bitGroupCount A P.mask g) ∧
      (∀ g' < g, bitGroupCount A P.mask g' < bitGroupCount A P.mask g)) ∧
    (A = 1 → P.mask.testBit P.first_byte_offset = true ∧
      ∀ i < P.first_byte_offset, P.mask.testBit i = false) := by
  obtain ⟨g, hg1, hg2, hg3, hg4, hg5⟩ := anchor_group_argmax A B hA s P h
  refine ⟨by rw [hg1]; simp [Nat.mul_mod_left], ⟨g, hg1, hg2, hg3, hg4, hg5⟩, ?_⟩
  rintro rfl
  rw [bitGroupCount_one] at hg3
  constructor
  · rw [hg1, Nat.mul_one]
    by_contra hc
    rw [Bool.not_eq_true] at hc
    rw [hc] at hg3
    simp at hg3
  · intro i hi
    have hik : i < g := by omega
    by_contra hci
    rw [Bool.not_eq_false] at hci
    have hlt := hg5 i hik
    rw [bitGroupCount_one, bitGroupCount_one, hci] at hlt
    by_cases hcg : P.mask.testBit g <;> simp [hcg] at hlt

theorem claim_C8_witness :
    (from_str 2 64 [0x3F, 0x20, 0x34, 0x31]).isOk = true ∧
    ∀ P, from_str 2 64 [0x3F, 0x20, 0x34, 0x31] = .ok P →
      P.first_byte_offset % 2 = 0 := by
  refine ⟨by decide, fun P h => ?_⟩
  exact (claim_C8_anchor_selection 2 64 (by norm_num) _ P h).1

/-- The specification's tokenization (§6, "whitespace-separated tokens"),
and its wildcard rule ("a wildcard token's first character is `.` or
`?`"); used to state the refuted reading of C9. -/
def specTokens (s : List Nat) : List (List Nat) :=
  (s.splitOnP isAsciiWhitespace).filter (fun t => !t.isEmpty)

def specWildcardTok (t : List Nat) : Bool :=
  t.headD 0 == 0x2E || t.headD 0 == 0x3F

/-- The success condition C9 claims for `Pattern::from_str`. -/
def specFromStrOk (B : Nat) (s : List Nat) : Prop :=
  (specTokens s).length ≤ B ∧
  (∀ t ∈ specTokens s, specWildcardTok t = false → (hex_to_u8 t).isSome = true) ∧
  (∃ t ∈ specTokens s, specWildcardTok t = false)

/-- C9 counterexample: `"n 41"` parses successfully (the token `"n"` is
accepted as a wildcard by the bit test `b & 0x2E == 0x2E`), although per
the claim it is neither a wildcard (first char `.`/`?`) nor a valid
two-hex-digit byte and should cause an `InvalidHexNumber` error. -/
theorem claim_C9_counterexample :
    (from_str 1 64 [0x6E, 0x20, 0x34, 0x31]).isOk = true ∧
    ¬ specFromStrOk 64 [0x6E, 0x20, 0x34, 0x31] := by
  constructor
  · decide
  · intro hc
    obtain ⟨_, hall, _⟩ := hc
    have hmem : [0x6E] ∈ specTokens [0x6E, 0x20, 0x34, 0x31] := by decide
    have := hall [0x6E] hmem (by decide)
    simp [hex_to_u8] at this

theorem parseToks_error_kind (toks : List (List Nat)) (idx : Nat)
    (buffer : List Nat) (mask : List Bool) (e : ParsePatternError)
    (h : parseToks toks idx buffer mask = .error e) : e = .InvalidHexNumber := by
  induction toks generalizing idx buffer mask with
  | nil => rw [parseToks] at h; cases h
  | cons t ts ih =>
    rw [parseToks] at h
    by_cases hw : is_wildcard t
    · rw [if_pos hw] at h
      exact ih _ _ _ h
    · rw [if_neg hw] at h
      cases hx : hex_to_u8 t with
      | none => rw [hx] at h; cases h; rfl
      | some v => rw [hx] at h; exact ih _ _ _ h

/-- C9 (amended): `Pattern::from_str` succeeds exactly when the token
stream produced by its early-stopping tokenizer (split at single ASCII
whitespace bytes, ending at the first empty chunk) has at most `BYTES`
tokens, every token that fails the wildcard bit test
(`first_byte & 0x2E == 0x2E`) is a valid two-hex-digit byte, and at least
one token fails that bit test; a non-wildcard token that is not valid hex
yields `InvalidHexNumber` (provided the token count is within bounds). -/
theorem claim_C9_token_classification (A B : Nat) (hA : 0 < A) (hAB : A ∣ B)
    (s : List Nat) :
    ((from_str A B s).isOk = true ↔
      ((tokens s).length ≤ B ∧
        (∀ t ∈ tokens s, is_wildcard t = false → (hex_to_u8 t).isSome = true) ∧
        (∃ t ∈ tokens s, is_wildcard t = false))) ∧
    ((tokens s).length ≤ B →
      (∃ t ∈ tokens s, is_wildcard t = false ∧ (hex_to_u8 t).isSome = false) →
      from_str A B s = .error .InvalidHexNumber) := by
  refine ⟨from_str_isOk_iff A B hA hAB s, ?_⟩
  rintro hlen ⟨t, ht, htw, hth⟩
  rw [from_str, if_neg (by omega)]
  cases hp : parseToks (tokens s) 0 (List.replicate B 0) (List.replicate B false) with
  | error e =>
    rw [parseToks_error_kind _ _ _ _ _ hp]
  | ok bm =>
    exfalso
    have h2 := parseToks_ok_iff (tokens s) 0 (List.replicate B 0) (List.replicate B false)
    rw [hp] at h2
    have := h2.mp rfl t ht htw
    rw [hth] at this
    cases this

theorem claim_C9_witness :
    (((from_str 1 64 [0x34, 0x32]).isOk = true ↔
      ((tokens [0x34, 0x32]).length ≤ 64 ∧
        (∀ t ∈ tokens [0x34, 0x32],
          is_wildcard t = false → (hex_to_u8 t).isSome = true) ∧
        (∃ t ∈ tokens [0x34, 0x32], is_wildcard t = false))) ∧
    ((tokens [0x34, 0x32]).length ≤ 64 →
      (∃ t ∈ tokens [0x34, 0x32],
        is_wildcard t = false ∧ (hex_to_u8 t).isSome = false) →
      from_str 1 64 [0x34, 0x32] = .error .InvalidHexNumber)) ∧
    (from_str 1 64 [0x34, 0x32]).isOk = true := by
  refine ⟨claim_C9_token_classification 1 64 (by norm_num) ⟨64, rfl⟩ [0x34, 0x32], ?_⟩
  rw [(claim_C9_token_classification 1 64 (by norm_num) ⟨64, rfl⟩ [0x34, 0x32]).1]
  decide

/-- C10: `Pattern::from_slice` has no error return; it panics (modelled
as `none`) whenever, after truncating the byte slice to the first `BYTES`
bytes and trimming the mask to that length, no retained position is
marked fixed — in particular on an empty slice or an all-wildcard mask.
Position `j` of the slice is marked by bit `63 - j` of the `u64` mask
(MSB-first, per `reverse_bits` in the source).  Within the `BYTES` bound
the characterization is exact (an iff). -/
theorem claim_C10_from_slice_panics (A B : Nat) (hA : 0 < A) (hAB : A ∣ B)
    (hB : B ≤ 64) (bytes : List Nat) (mask : Nat) :
    ((∀ j < min bytes.length B, mask.testBit (63 - j) = false) →
      from_slice A B bytes mask = none) ∧
    (bytes.length ≤ B →
      (from_slice A B bytes mask = none ↔
        ∀ j < bytes.length, mask.testBit (63 - j) = false)) :=
  from_slice_none_iff A B hA hAB hB bytes mask

theorem claim_C10_witness :
    (((∀ j < min (List.length [0x41]) 64, (0 : Nat).testBit (63 - j) = false) →
      from_slice 1 64 [0x41] 0 = none) ∧
    (List.length [0x41] ≤ 64 →
      (from_slice 1 64 [0x41] 0 = none ↔
        ∀ j < List.length [0x41], (0 : Nat).testBit (63 - j) = false))) ∧
    from_slice 1 64 [0x41] 0 = none := by
  refine ⟨claim_C10_from_slice_panics 1 64 (by norm_num) ⟨64, rfl⟩ (by norm_num)
    [0x41] 0, ?_⟩
  exact (claim_C10_from_slice_panics 1 64 (by norm_num) ⟨64, rfl⟩ (by norm_num)
    [0x41] 0).1 (by decide)

/-! ## Scanner specification layer

The reference semantics (`reference/src/reference.rs`): an offset `o`
matches when every fixed pattern position agrees with the haystack byte.
Alignment in the scanner is relative to the *absolute address*
(`Scanner::first_offset` aligns to the address, and the reference's
`Scanner::new` starts at `data.as_ptr().align_offset(alignment)`). -/

/-- `plain_match` at slice offset `o` (`reference/src/reference.rs` lines
76–83), phrased over the compiled pattern: every fixed (masked-in)
position agrees with memory. -/
def matchAt (P : Pattern) (mem : Nat → Nat) (addr o : Nat) : Prop :=
  ∀ i < P.length, P.mask.testBit i = true → mem (addr + o + i) = P.bytes i

instance (P : Pattern) (mem : Nat → Nat) (addr o : Nat) :
    Decidable (matchAt P mem addr o) := by
  unfold matchAt; infer_instance

/-- A full match the scanner should report: alignment relative to the
absolute base address, the whole (wildcard-inclusive) pattern within the
haystack, and all fixed bytes equal. -/
def specOkB (A : Nat) (P : Pattern) (mem : Nat → Nat) (addr len o : Nat) : Bool :=
  decide ((addr + o) % A = 0) && decide (o + P.length ≤ len) &&
    decide (matchAt P mem addr o)

/-- The canonical result list: all matching offsets, in increasing
order. -/
def matchesSpec (A : Nat) (P : Pattern) (mem : Nat → Nat) (addr len : Nat) : List Nat :=
  (List.range len).filter (specOkB A P mem addr len)

/-- Matches whose anchor-group address `addr + o + first_byte_offset` is
at or beyond `q` — the ones still ahead of a cursor whose chunks below
`q` are already consumed. -/
def matchesG (A : Nat) (P : Pattern) (mem : Nat → Nat) (addr len q : Nat) : List Nat :=
  (List.range len).filter
    (fun o => specOkB A P mem addr len o &&
      decide (q ≤ addr + o + P.first_byte_offset))

/-- The offsets still pending inside one chunk's candidates mask, in
candidate order, filtered the way `consume_candidates` will filter them
(length check in the safe variant, then full verification). -/
def chunkYields (A B : Nat) (P : Pattern) (mem : Nat → Nat) (addr len : Nat)
    (sc : Bool) (cm position : Nat) : List Nat :=
  ((List.range B).filter (fun b => cm.testBit b)).filterMap (fun b =>
    let o := position + b - P.first_byte_offset - addr
    if sc ∧ len - o < P.length then none
    else if matchAt P mem addr o then some o else none)

/-- Number of set bits among the low `B` (bounds `consume`'s loop). -/
def popB (B cm : Nat) : Nat :=
  ((List.range B).filter (fun b => cm.testBit b)).length

/-- Well-formedness facts about a compiled pattern used by the scanner
proofs; `from_str_wf` below shows every pattern produced by
`Pattern::from_str` satisfies them. -/
structure PatternWF (A B : Nat) (P : Pattern) : Prop where
  len_pos : 0 < P.length
  len_le : P.length ≤ B
  fbo_mod : P.first_byte_offset % A = 0
  fbo_le : P.first_byte_offset + A ≤ B
  fbo_lt : P.first_byte_offset < P.length
  mask_bits : ∀ i, P.mask.testBit i = true → i < P.length
  anchor_fixed : ∃ j < A, P.mask.testBit (P.first_byte_offset + j) = true
  first_bytes_eq : ∀ k < B, P.first_bytes k = P.bytes (P.first_byte_offset + k % A)
  fbm_eq : ∀ k, P.first_bytes_mask.testBit k =
    (decide (k < B) && !(P.mask.testBit (P.first_byte_offset + k % A)))

/-! ### List helpers: sorted lists, bit lists -/

theorem eq_of_sorted_of_mem_iff {l₁ l₂ : List Nat}
    (h₁ : l₁.Sorted (· < ·)) (h₂ : l₂.Sorted (· < ·))
    (hmem : ∀ x, x ∈ l₁ ↔ x ∈ l₂) : l₁ = l₂ :=
  List.eq_of_perm_of_sorted
    ((List.perm_ext_iff_of_nodup h₁.nodup h₂.nodup).mpr hmem) h₁ h₂

theorem sorted_filter_range (n : Nat) (p : Nat → Bool) :
    ((List.range n).filter p).Sorted (· < ·) :=
  (List.pairwise_lt_range n).filter p

/-- A `filterMap` by a strictly monotone partial function preserves
strict sortedness. -/
theorem sorted_filterMap {l : List Nat} {f : Nat → Option Nat}
    (hl : l.Sorted (· < ·))
    (hf : ∀ x y a b, x < y → f x = some a → f y = some b → a < b) :
    (l.filterMap f).Sorted (· < ·) := by
  induction l with
  | nil => simp
  | cons x l ih =>
    rw [List.filterMap_cons]
    have hl' := (List.sorted_cons.mp hl).2
    have hx := (List.sorted_cons.mp hl).1
    cases hfx : f x with
    | none => exact ih hl'
    | some a =>
      rw [List.sorted_cons]
      refine ⟨?_, ih hl'⟩
      intro b hb
      obtain ⟨y, hy, hfy⟩ := List.mem_filterMap.mp hb
      exact hf x y a b (hx y hy) hfx hfy

theorem lt_two_pow_of_bits {m B : Nat} (h : ∀ b, m.testBit b = true → b < B) :
    m < 2 ^ B := by
  rcases Nat.eq_zero_or_pos m with rfl | hm
  · positivity
  obtain ⟨b, hb, hhigh⟩ := Nat.exists_most_significant_bit (show m ≠ 0 by omega)
  have h1 : b < B := h b hb
  have h2 : m < 2 ^ (b + 1) := by
    refine Nat.lt_of_testBit (b + 1) ?_ ?_ ?_
    · exact hhigh (b + 1) (by omega)
    · simp
    · intro j hj
      rw [hhigh j (by omega), Nat.testBit_two_pow_of_ne (by omega)]
  exact lt_of_lt_of_le h2 (Nat.pow_le_pow_right (by omega) (by omega))

/-- Consuming the lowest set bit `b`: the ascending list of set bits of
`cm` is `b` followed by the set bits of `cm` with `b` cleared. -/
theorem filter_bits_cons {cm b B : Nat} (hb : b < B)
    (hbit : cm.testBit b = true) (hlow : ∀ j < b, cm.testBit j = false) :
    (List.range B).filter (fun k => cm.testBit k) =
      b :: (List.range B).filter (fun k => (cm ^^^ (1 <<< b)).testBit k) := by
  have hsplit : List.range B = List.range (b + 1) ++
      (List.range (B - (b + 1))).map ((b + 1) + ·) := by
    rw [← List.range_add]
    congr 1
    omega
  rw [hsplit, List.filter_append, List.filter_append, List.range_succ,
    List.filter_append, List.filter_append]
  have hlow1 : (List.range b).filter (fun k => cm.testBit k) = [] := by
    rw [List.filter_eq_nil_iff]
    intro x hx
    rw [List.mem_range] at hx
    simp [hlow x hx]
  have hlow2 : (List.range b).filter (fun k => (cm ^^^ (1 <<< b)).testBit k) = [] := by
    rw [List.filter_eq_nil_iff]
    intro x hx
    rw [List.mem_range] at hx
    rw [testBit_clear]
    simp [Nat.ne_of_lt hx, hlow x hx]
  have hsing1 : [b].filter (fun k => cm.testBit k) = [b] := by simp [hbit]
  have hsing2 : [b].filter (fun k => (cm ^^^ (1 <<< b)).testBit k) = [] := by
    rw [List.filter_eq_nil_iff]
    intro x hx
    rw [List.mem_singleton] at hx
    subst hx
    rw [testBit_clear]
    simp [hbit]
  have hrest : ((List.range (B - (b + 1))).map ((b + 1) + ·)).filter
      (fun k => cm.testBit k) =
      ((List.range (B - (b + 1))).map ((b + 1) + ·)).filter
        (fun k => (cm ^^^ (1 <<< b)).testBit k) := by
    apply List.filter_congr
    intro x hx
    obtain ⟨j, _, rfl⟩ := List.mem_map.mp hx
    rw [testBit_clear]
    simp only [if_neg (show ¬(b + 1 + j = b) by omega)]
  rw [hlow1, hlow2, hsing1, hsing2, hrest]
  simp

theorem testBit_bitsOf_lt {B i : Nat} (p : Nat → Bool) (hi : i < B) :
    (bitsOf B p).testBit i = p i := by
  rw [testBit_bitsOf]
  simp [hi]

theorem eqMask_testBit_lt {B i : Nat} (v w : Nat → Nat) (hi : i < B) :
    (eqMask B v w).testBit i = (v i == w i) :=
  testBit_bitsOf_lt _ hi

theorem dataLenMask_testBit_lt {B i : Nat} (n : Nat) (hi : i < B) :
    (dataLenMask B n).testBit i = decide (i < min n B) :=
  testBit_bitsOf_lt _ hi

theorem load_apply (mem : Nat → Nat) (sc : Bool) (ptr lm i : Nat) :
    load mem sc ptr lm i =
      if sc then (if lm.testBit i then mem (ptr + i) else 0) else mem (ptr + i) := rfl

/-- The verification check of `consume_candidates` succeeds exactly on a
reference-semantics match (given the safe variant's length guard has
already passed). -/
theorem verify_iff (A B : Nat) (P : Pattern) (mem : Nat → Nat)
    (addr len : Nat) (hwf : PatternWF A B P) (sc : Bool) (o : Nat)
    (hlen : sc = true → P.length ≤ len - o) :
    (verifyAt B P mem sc (addr + o) (len - o) = true ↔ matchAt P mem addr o) := by
  rw [verifyAt]
  simp only [beq_iff_eq]
  have hdlm : ∀ i, i < P.length → sc = true →
      (dataLenMask B (len - o)).testBit i = true := by
    intro i hi hsc
    have hiB : i < B := lt_of_lt_of_le hi hwf.len_le
    have hL := hlen hsc
    rw [dataLenMask_testBit_lt _ hiB]
    simp only [decide_eq_true_eq]
    omega
  constructor
  · intro heq i hi hmask
    have hiB : i < B := lt_of_lt_of_le hi hwf.len_le
    have hbit := congrArg (fun m => Nat.testBit m i) heq
    simp only at hbit
    by_cases hsc : sc = true
    · rw [hsc] at hbit
      rw [if_pos rfl, Nat.testBit_land, Nat.testBit_land, hmask, Bool.and_true,
        hdlm i hi hsc, Bool.and_true, eqMask_testBit_lt _ _ hiB, load_apply] at hbit
      rw [if_pos rfl, hdlm i hi hsc] at hbit
      rw [if_pos rfl] at hbit
      exact eq_of_beq hbit
    · have hsc' : sc = false := by
        cases sc
        · rfl
        · exact absurd rfl hsc
      rw [hsc'] at hbit
      rw [if_neg (by simp), Nat.testBit_land, hmask, Bool.and_true,
        eqMask_testBit_lt _ _ hiB, load_apply] at hbit
      rw [if_neg (by simp)] at hbit
      exact eq_of_beq hbit
  · intro hmatch
    apply Nat.eq_of_testBit_eq
    intro i
    by_cases hiB : i < B
    · by_cases hm : P.mask.testBit i = true
      · have hiL := hwf.mask_bits i hm
        have heqb : (eqMask B (load mem sc (addr + o)
            (dataLenMask B (len - o))) P.bytes).testBit i = true := by
          rw [eqMask_testBit_lt _ _ hiB, load_apply]
          have hval := hmatch i hiL hm
          by_cases hsc : sc = true
          · rw [hsc, if_pos rfl, hdlm i hiL hsc, if_pos rfl, hval]
            simp
          · have hsc' : sc = false := by
              cases sc
              · rfl
              · exact absurd rfl hsc
            rw [hsc', if_neg (by simp), hval]
            simp
        by_cases hsc : sc = true
        · rw [hsc] at heqb
          rw [hsc, if_pos rfl, Nat.testBit_land, Nat.testBit_land, heqb, hm,
            hdlm i hiL hsc]
          rfl
        · have hsc' : sc = false := by
            cases sc
            · rfl
            · exact absurd rfl hsc
          rw [hsc'] at heqb
          rw [hsc', if_neg (by simp), Nat.testBit_land, heqb, hm]
          rfl
      · have hm' : P.mask.testBit i = false := by
          cases h : P.mask.testBit i
          · rfl
          · exact absurd h hm
        rw [hm']
        by_cases hsc : sc = true
        · rw [hsc, if_pos rfl, Nat.testBit_land, Nat.testBit_land, hm']
          simp
        · have hsc' : sc = false := by
            cases sc
            · rfl
            · exact absurd rfl hsc
          rw [hsc', if_neg (by simp), Nat.testBit_land, hm']
          simp
    · push_neg at hiB
      have heqf : (eqMask B (load mem sc (addr + o)
          (dataLenMask B (len - o))) P.bytes).testBit i = false :=
        testBit_eq_false_of_ge hiB
      have hmf : P.mask.testBit i = false := by
        cases h : P.mask.testBit i
        · rfl
        · have := hwf.mask_bits i h
          have := hwf.len_le
          omega
      rw [hmf]
      by_cases hsc : sc = true
      · rw [hsc] at heqf
        rw [hsc, if_pos rfl, Nat.testBit_land, Nat.testBit_land, heqf]
        simp
      · have hsc' : sc = false := by
          cases sc
          · rfl
          · exact absurd rfl hsc
        rw [hsc'] at heqf
        rw [hsc', if_neg (by simp), Nat.testBit_land, heqf]
        simp

/-- One call to `consume_candidates`: it pops the head of the pending
yield list (or returns `none` when that list is empty), and the surviving
candidates mask carries exactly the tail. -/
theorem consume_step (A B : Nat) (P : Pattern) (mem : Nat → Nat)
    (addr len : Nat) (hwf : PatternWF A B P) (sc : Bool) :
    ∀ (fuel cm position : Nat), popB B cm < fuel →
    (∀ b, cm.testBit b = true → b < B ∧ addr + P.first_byte_offset ≤ position + b) →
    (∀ b, (consume B P mem addr len sc fuel cm position).2.testBit b = true →
      cm.testBit b = true) ∧
    match chunkYields A B P mem addr len sc cm position with
    | [] => (consume B P mem addr len sc fuel cm position).1 = none ∧
        chunkYields A B P mem addr len sc
          (consume B P mem addr len sc fuel cm position).2 position = []
    | o :: rest => (consume B P mem addr len sc fuel cm position).1 = some o ∧
        chunkYields A B P mem addr len sc
          (consume B P mem addr len sc fuel cm position).2 position = rest := by
  intro fuel
  induction fuel with
  | zero => intro cm position hfuel hbits; omega
  | succ fuel ih =>
    intro cm position hfuel hbits
    by_cases hcm : cm = 0
    · subst hcm
      constructor
      · intro b hb
        rw [consume] at hb
        simpa using hb
      · have hempty : chunkYields A B P mem addr len sc 0 position = [] := by
          rw [chunkYields]
          have : (List.range B).filter (fun b => (0 : Nat).testBit b) = [] := by
            rw [List.filter_eq_nil_iff]; intro x _; simp
          rw [this]; rfl
        rw [hempty, consume]
        simp only [if_pos rfl]
        exact ⟨rfl, hempty⟩
    · have hcmlt : cm < 2 ^ B := lt_two_pow_of_bits (fun b hb => (hbits b hb).1)
      obtain ⟨hbbit, hblow⟩ := lowBitAux_spec B cm hcm hcmlt
      set b := lowBitAux B cm with hbdef
      have hbB : b < B := (hbits b hbbit).1
      have hfc := filter_bits_cons hbB hbbit hblow
      set cm' := cm ^^^ (1 <<< b) with hcmXdef
      have hbits' : ∀ k, cm'.testBit k = true →
          k < B ∧ addr + P.first_byte_offset ≤ position + k := by
        intro k hk
        rw [hcmXdef, testBit_clear] at hk
        by_cases hkb : k = b
        · rw [if_pos hkb] at hk; simp [hbbit, hkb] at hk
        · rw [if_neg hkb] at hk; exact hbits k hk
      have hsub' : ∀ k, cm'.testBit k = true → cm.testBit k = true := by
        intro k hk
        rw [hcmXdef, testBit_clear] at hk
        by_cases hkb : k = b
        · rw [if_pos hkb] at hk; simp at hk; rw [hkb]; exact hbbit
        · rwa [if_neg hkb] at hk
      have hpop' : popB B cm' < fuel := by
        have : popB B cm = popB B cm' + 1 := by
          rw [popB, popB, hfc]; rfl
        omega
      -- evaluate one unfolding of consume
      have hcy : chunkYields A B P mem addr len sc cm position =
          (let o := position + b - P.first_byte_offset - addr
           if sc ∧ len - o < P.length then none
           else if matchAt P mem addr o then some o else none).toList ++
          chunkYields A B P mem addr len sc cm' position := by
        rw [chunkYields, chunkYields, hfc, List.filterMap_cons]
        cases hout : (let o := position + b - P.first_byte_offset - addr
           if sc ∧ len - o < P.length then none
           else if matchAt P mem addr o then some o else none) with
        | none => rfl
        | some o => rfl
      rw [consume]
      simp only [if_neg hcm, ← hbdef, ← hcmXdef]
      set o := position + b - P.first_byte_offset - addr with hodef
      by_cases hshort : sc = true ∧ len - o < P.length
      · -- short candidate: every later candidate is shorter still
        have hsc : sc = true := hshort.1
        have hnone : ∀ k, cm.testBit k = true →
            (let o' := position + k - P.first_byte_offset - addr
             if sc ∧ len - o' < P.length then none
             else if matchAt P mem addr o' then some o' else none) = (none : Option Nat) := by
          intro k hk
          have hkge : b ≤ k := by
            by_contra hlt
            push_neg at hlt
            rw [hblow k hlt] at hk
            cases hk
          have hshort' : len - (position + k - P.first_byte_offset - addr) < P.length := by
            omega
          simp only [hsc, true_and, hshort', if_pos]
        have hempty : chunkYields A B P mem addr len sc cm position = [] := by
          rw [chunkYields, List.filterMap_eq_nil_iff]
          intro k hk
          rw [List.mem_filter] at hk
          exact hnone k hk.2
        have hempty2 : chunkYields A B P mem addr len sc cm' position = [] := by
          rw [chunkYields, List.filterMap_eq_nil_iff]
          intro k hk
          rw [List.mem_filter] at hk
          exact hnone k (hsub' k hk.2)
        rw [if_pos hshort, hempty]
        exact ⟨hsub', rfl, hempty2⟩
      · rw [if_neg hshort]
        have hop : position + b - P.first_byte_offset = addr + o := by
          have := (hbits b hbbit).2
          omega
        have hlenhyp : sc = true → P.length ≤ len - o := by
          intro hsc
          rcases Nat.lt_or_ge (len - o) P.length with h | h
          · exact absurd ⟨hsc, h⟩ hshort
          · exact h
        have hverify := verify_iff A B P mem addr len hwf sc o hlenhyp
        rw [hop]
        by_cases hmatch : matchAt P mem addr o
        · rw [if_pos (hverify.mpr hmatch)]
          have hX : (let o' := position + b - P.first_byte_offset - addr
              if sc ∧ len - o' < P.length then none
              else if matchAt P mem addr o' then some o' else none) = some o := by
            show (if sc ∧ len - o < P.length then none
                  else if matchAt P mem addr o then some o else none) = some o
            rw [if_neg hshort, if_pos hmatch]
          rw [hX] at hcy
          rw [hcy]
          exact ⟨hsub', rfl, rfl⟩
        · rw [if_neg (fun hc => hmatch (hverify.mp hc))]
          have hX : (let o' := position + b - P.first_byte_offset - addr
              if sc ∧ len - o' < P.length then none
              else if matchAt P mem addr o' then some o' else none) = (none : Option Nat) := by
            show (if sc ∧ len - o < P.length then none
                  else if matchAt P mem addr o then some o else none) = none
            rw [if_neg hshort, if_neg hmatch]
          rw [hX] at hcy
          rw [hcy]
          simp only [Option.toList_none, List.nil_append]
          obtain ⟨hsub2, hmatch2⟩ := ih cm' position hpop' hbits'
          exact ⟨fun k hk => hsub' k (hsub2 k hk), hmatch2⟩

/-! ### Candidate-builder characterization -/

/-- A lane of the anchor `search` comparison: the loaded byte equals the
repeated anchor-group byte, or (for `ALIGNMENT > 1`) the lane is a
wildcard of the anchor group. -/
def searchLane (A B : Nat) (P : Pattern) (mem : Nat → Nat) (sb : Bool)
    (p n k : Nat) : Prop :=
  load mem sb p (dataLenMask B n) k = P.first_bytes k ∨
    (1 < A ∧ P.first_bytes_mask.testBit k = true)

/-- A lane of the `mask_min_len` filter applied in the safe builder. -/
def mmlLane (A B : Nat) (P : Pattern) (n k : Nat) : Prop :=
  (maskMinLen A B (dataLenMask B n) P.first_bytes_mask).testBit k = true

theorem mod_group (A b j : Nat) (hb : b % A = 0) (hj : j < A) :
    (b + j) % A = j := by
  rw [Nat.add_mod, hb, Nat.zero_add, Nat.mod_mod_of_dvd _ dvd_rfl,
    Nat.mod_eq_of_lt hj]

theorem group_lane_lt {A B b j : Nat} (hAB : A ∣ B) (hb : b % A = 0)
    (hbB : b < B) (hj : j < A) : b + j < B := by
  obtain ⟨q, rfl⟩ := Nat.dvd_of_mod_eq_zero hb
  obtain ⟨c, rfl⟩ := hAB
  have hq : q < c := by
    by_contra hc
    push_neg at hc
    exact absurd hbB (by push_neg; exact Nat.mul_le_mul_left A hc)
  calc A * q + j < A * q + A := by omega
    _ = A * (q + 1) := by ring
    _ ≤ A * c := Nat.mul_le_mul_left A hq

theorem div_group {A b j : Nat} (hA : 0 < A) (hb : b % A = 0) (hj : j < A) :
    A * ((b + j) / A) = b := by
  have h := Nat.div_add_mod b A
  rw [show b + j = A * (b / A) + j by omega, Nat.mul_add_div hA,
    Nat.div_eq_of_lt hj, Nat.add_zero]
  omega

theorem maskMinLen_testBit (A B : Nat) (P : Pattern) (n k : Nat)
    (hA : A = 1 ∨ A = 2 ∨ A = 4 ∨ A = 8 ∨ A = 16 ∨ A = 32 ∨ A = 64)
    (hAB : A ∣ B) (hk : k < B) :
    mmlLane A B P n k ↔
      (k < min n B ∨ ∀ j < A,
        (P.first_bytes_mask.testBit (A * (k / A) + j) = true ∨
          A * (k / A) + j < min n B)) := by
  have hApos : 0 < A := by
    rcases hA with rfl | rfl | rfl | rfl | rfl | rfl | rfl <;> norm_num
  rw [mmlLane, maskMinLen, Nat.testBit_lor, extendBitmask, testBit_bitsOf_lt _ hk,
    dataLenMask_testBit_lt _ hk, testBit_reduceBitmask _ _ _ _ hA,
    Nat.div_mul_cancel hAB]
  have hqk : A * (k / A) ≤ k := Nat.mul_div_le k A
  have hqB : A * (k / A) < B := by omega
  have hqmod : A * (k / A) % A = 0 := by simp [Nat.mul_mod_right]
  have hlaneB : ∀ j < A, A * (k / A) + j < B :=
    fun j hj => group_lane_lt hAB hqmod hqB hj
  simp only [Bool.or_eq_true, decide_eq_true_eq]
  constructor
  · rintro (⟨_, _, hall⟩ | hlen)
    · refine Or.inr (fun j hj => ?_)
      have := hall j hj
      rw [Nat.testBit_lor, Bool.or_eq_true,
        dataLenMask_testBit_lt _ (hlaneB j hj)] at this
      rcases this with h | h
      · exact Or.inl h
      · exact Or.inr (by simpa using h)
    · exact Or.inl hlen
  · rintro (hlen | hall)
    · exact Or.inr hlen
    · refine Or.inl ⟨hqB, hqmod, fun j hj => ?_⟩
      rw [Nat.testBit_lor, Bool.or_eq_true,
        dataLenMask_testBit_lt _ (hlaneB j hj)]
      rcases hall j hj with h | h
      · exact Or.inl h
      · exact Or.inr (by simpa using h)

/-- Bit-level reading of `build_candidates`: bit `i` is set iff `i` is an
in-range group start whose whole group passes the anchor search (and, for
the safe builder, the `mask_min_len` filter). -/
theorem build_testBit (A B : Nat) (P : Pattern) (mem : Nat → Nat)
    (hA : A = 1 ∨ A = 2 ∨ A = 4 ∨ A = 8 ∨ A = 16 ∨ A = 32 ∨ A = 64)
    (hAB : A ∣ B) (sb : Bool) (p n i : Nat) :
    ((build_candidates A B P mem sb p n).testBit i = true ↔
      (i < B ∧ i % A = 0 ∧ (∀ j < A, searchLane A B P mem sb p n (i + j)) ∧
        (sb = true → ∀ j < A, mmlLane A B P n (i + j)))) := by
  have hApos : 0 < A := by
    rcases hA with rfl | rfl | rfl | rfl | rfl | rfl | rfl <;> norm_num
  simp only [build_candidates]
  rw [testBit_reduceBitmask _ _ _ _ hA, Nat.div_mul_cancel hAB]
  simp only [decide_eq_true_eq]
  constructor
  · rintro ⟨hiB, hiA, hall⟩
    refine ⟨hiB, hiA, ?_, ?_⟩
    · intro j hj
      have hlane := hall j hj
      have hlaneB : i + j < B := group_lane_lt hAB hiA hiB hj
      by_cases hsb : sb = true
      · rw [hsb] at hlane
        rw [if_pos rfl, Nat.testBit_land, Bool.and_eq_true] at hlane
        have hsearch := hlane.1
        by_cases h1A : 1 < A
        · rw [if_pos h1A, Nat.testBit_lor, Bool.or_eq_true] at hsearch
          rcases hsearch with h | h
          · rw [eqMask_testBit_lt _ _ hlaneB] at h
            exact Or.inl (by rw [hsb]; exact eq_of_beq h)
          · exact Or.inr ⟨h1A, h⟩
        · rw [if_neg h1A, eqMask_testBit_lt _ _ hlaneB] at hsearch
          exact Or.inl (by rw [hsb]; exact eq_of_beq hsearch)
      · have hsb' : sb = false := by
          cases sb
          · rfl
          · exact absurd rfl hsb
        rw [hsb'] at hlane
        rw [if_neg (by simp)] at hlane
        by_cases h1A : 1 < A
        · rw [if_pos h1A, Nat.testBit_lor, Bool.or_eq_true] at hlane
          rcases hlane with h | h
          · rw [eqMask_testBit_lt _ _ hlaneB] at h
            exact Or.inl (by rw [hsb']; exact eq_of_beq h)
          · exact Or.inr ⟨h1A, h⟩
        · rw [if_neg h1A, eqMask_testBit_lt _ _ hlaneB] at hlane
          exact Or.inl (by rw [hsb']; exact eq_of_beq hlane)
    · intro hsb j hj
      have hlane := hall j hj
      rw [hsb, if_pos rfl, Nat.testBit_land, Bool.and_eq_true] at hlane
      exact hlane.2
  · rintro ⟨hiB, hiA, hsearch, hmml⟩
    refine ⟨hiB, hiA, ?_⟩
    intro j hj
    have hlaneB : i + j < B := group_lane_lt hAB hiA hiB hj
    have hs : (if 1 < A then
        eqMask B (load mem sb p (dataLenMask B n)) P.first_bytes |||
          P.first_bytes_mask
      else eqMask B (load mem sb p (dataLenMask B n)) P.first_bytes).testBit
        (i + j) = true := by
      rcases hsearch j hj with h | ⟨h1A, hfbm⟩
      · by_cases h1A : 1 < A
        · rw [if_pos h1A, Nat.testBit_lor, eqMask_testBit_lt _ _ hlaneB]
          simp [h]
        · rw [if_neg h1A, eqMask_testBit_lt _ _ hlaneB]
          simp [h]
      · rw [if_pos h1A, Nat.testBit_lor, hfbm]
        simp
    by_cases hsb : sb = true
    · rw [hsb, if_pos rfl, Nat.testBit_land]
      rw [hsb] at hs
      rw [hs]
      have := hmml hsb j hj
      rw [mmlLane] at this
      rw [this]
      rfl
    · have hsb' : sb = false := by
        cases sb
        · rfl
        · exact absurd rfl hsb
      rw [hsb', if_neg (by simp)]
      rw [hsb'] at hs
      exact hs

/-- Candidates of the safe builder lie strictly inside the declared
window: every set bit is `< min n B`. -/
theorem build_safe_bits_lt (A B : Nat) (P : Pattern) (mem : Nat → Nat)
    (hA : A = 1 ∨ A = 2 ∨ A = 4 ∨ A = 8 ∨ A = 16 ∨ A = 32 ∨ A = 64)
    (hAB : A ∣ B) (hwf : PatternWF A B P) (p n i : Nat)
    (h : (build_candidates A B P mem true p n).testBit i = true) :
    i < min n B := by
  have hApos : 0 < A := by
    rcases hA with rfl | rfl | rfl | rfl | rfl | rfl | rfl <;> norm_num
  obtain ⟨hiB, hiA, _, hmml⟩ := (build_testBit A B P mem hA hAB true p n i).mp h
  obtain ⟨j, hj, hfix⟩ := hwf.anchor_fixed
  have hlane := hmml rfl j hj
  rw [maskMinLen_testBit A B P n (i + j) hA hAB (group_lane_lt hAB hiA hiB hj)]
    at hlane
  have hfbm : P.first_bytes_mask.testBit (i + j) = false := by
    rw [hwf.fbm_eq, mod_group A i j hiA hj, hfix]
    simp
  rcases hlane with h | hgrp
  · omega
  · have := hgrp j hj
    rw [div_group hApos hiA hj, hfbm] at this
    rcases this with h | h
    · cases h
    · omega

theorem chunkYields_sorted (A B : Nat) (P : Pattern) (mem : Nat → Nat)
    (addr len : Nat) (sc : Bool) (cm p : Nat)
    (hp : addr + P.first_byte_offset ≤ p) :
    (chunkYields A B P mem addr len sc cm p).Sorted (· < ·) := by
  apply sorted_filterMap (sorted_filter_range B _)
  intro x y a b hxy hfx hfy
  have hax : a = p + x - P.first_byte_offset - addr := by
    dsimp only at hfx
    split_ifs at hfx
    · injection hfx with h
      omega
  have hby : b = p + y - P.first_byte_offset - addr := by
    dsimp only at hfy
    split_ifs at hfy
    · injection hfy with h
      omega
  omega

theorem chunkYields_mem (A B : Nat) (P : Pattern) (mem : Nat → Nat)
    (addr len : Nat) (sc : Bool) (cm p o : Nat) :
    o ∈ chunkYields A B P mem addr len sc cm p ↔
      ∃ b < B, cm.testBit b = true ∧ o = p + b - P.first_byte_offset - addr ∧
        ¬(sc = true ∧ len - o < P.length) ∧ matchAt P mem addr o := by
  rw [chunkYields, List.mem_filterMap]
  constructor
  · rintro ⟨b, hbmem, hfb⟩
    rw [List.mem_filter, List.mem_range] at hbmem
    refine ⟨b, hbmem.1, hbmem.2, ?_⟩
    dsimp only at hfb
    split_ifs at hfb with h1 h2
    · injection hfb with h
      subst h
      exact ⟨rfl, h1, h2⟩
  · rintro ⟨b, hbB, hbit, hoeq, hnshort, hmatch⟩
    refine ⟨b, ?_, ?_⟩
    · rw [List.mem_filter, List.mem_range]
      exact ⟨hbB, hbit⟩
    · dsimp only
      rw [← hoeq, if_neg hnshort, if_pos hmatch]

/-- The central window lemma: draining a freshly built candidates mask at
`position = p` yields exactly the matches whose anchor-group address lies
in `[p, p + n)`, in increasing order.  Side conditions: the window size is
within a chunk (`n ≤ B`, with `n = B` for the fast builder), the position
is beyond the first feasible anchor and alignment-true, the window either
ends on an alignment boundary or covers the rest of the haystack, and a
fast-consumed window keeps a full chunk of margin before the haystack
end. -/
theorem chunkYields_window (A B : Nat) (P : Pattern) (mem : Nat → Nat)
    (addr len : Nat)
    (hA : A = 1 ∨ A = 2 ∨ A = 4 ∨ A = 8 ∨ A = 16 ∨ A = 32 ∨ A = 64)
    (hAB : A ∣ B) (hwf : PatternWF A B P) (sb sc : Bool) (p n : Nat)
    (hn : n ≤ B) (hnfast : sb = false → n = B)
    (hp : addr + P.first_byte_offset ≤ p) (hpA : p % A = 0)
    (hend : (p + n) % A = 0 ∨ addr + len ≤ p + n)
    (hfast : sc = false → p + n + B ≤ addr + len) :
    chunkYields A B P mem addr len sc (build_candidates A B P mem sb p n) p =
      (List.range len).filter (fun o => specOkB A P mem addr len o &&
        (decide (p ≤ addr + o + P.first_byte_offset) &&
          decide (addr + o + P.first_byte_offset < p + n))) := by
  have hApos : 0 < A := by
    rcases hA with rfl | rfl | rfl | rfl | rfl | rfl | rfl <;> norm_num
  have h1A : A ≠ 1 → 1 < A := by omega
  apply eq_of_sorted_of_mem_iff
    (chunkYields_sorted A B P mem addr len sc _ p hp)
    (sorted_filter_range len _)
  intro o
  rw [chunkYields_mem, List.mem_filter, List.mem_range]
  simp only [specOkB, Bool.and_eq_true, decide_eq_true_eq]
  constructor
  · rintro ⟨b, hbB, hbit, hoeq, hnshort, hmatch⟩
    obtain ⟨_, hbA, _, _⟩ := (build_testBit A B P mem hA hAB sb p n b).mp hbit
    have hbn : b < n := by
      by_cases hsb : sb = true
      · have := build_safe_bits_lt A B P mem hA hAB hwf p n b (by rwa [hsb] at hbit)
        omega
      · have hsb' : sb = false := by
          cases sb
          · rfl
          · exact absurd rfl hsb
        rw [hnfast hsb']
        exact hbB
    have hgo : addr + o + P.first_byte_offset = p + b := by omega
    have hoL : o + P.length ≤ len := by
      by_cases hsc : sc = true
      · have hL := hwf.len_pos
        simp only [hsc, true_and] at hnshort
        omega
      · have hsc' : sc = false := by
          cases sc
          · rfl
          · exact absurd rfl hsc
        have := hfast hsc'
        have := hwf.len_le
        omega
    have hoA : (addr + o) % A = 0 := by
      have hd : A ∣ addr + o := by
        have h1 : A ∣ p + b := Nat.dvd_add (Nat.dvd_of_mod_eq_zero hpA)
          (Nat.dvd_of_mod_eq_zero hbA)
        have h2 : A ∣ P.first_byte_offset := Nat.dvd_of_mod_eq_zero hwf.fbo_mod
        have h3 : addr + o = p + b - P.first_byte_offset := by omega
        rw [h3]
        exact Nat.dvd_sub' h1 h2
      omega
    have hL := hwf.len_pos
    exact ⟨by omega, ⟨⟨hoA, hoL⟩, hmatch⟩, ⟨by omega, by omega⟩⟩
  · rintro ⟨holen, ⟨⟨hoA, hoL⟩, hmatch⟩, hge, hlt⟩
    have hL := hwf.len_pos
    have hLB := hwf.len_le
    set b := addr + o + P.first_byte_offset - p with hbdef
    have hgo : addr + o + P.first_byte_offset = p + b := by omega
    have hbn : b < n := by omega
    have hbB : b < B := by omega
    have hbA : b % A = 0 := by
      have hd : A ∣ b := by
        have h1 : A ∣ addr + o + P.first_byte_offset :=
          Nat.dvd_add (Nat.dvd_of_mod_eq_zero hoA)
            (Nat.dvd_of_mod_eq_zero hwf.fbo_mod)
        have h2 : A ∣ p := Nat.dvd_of_mod_eq_zero hpA
        rw [hbdef]
        exact Nat.dvd_sub' h1 h2
      omega
    -- group lanes: a fixed lane stays inside the window, a lane outside
    -- the window is a wildcard
    have hlanes : ∀ j < A, (P.mask.testBit (P.first_byte_offset + j) = true →
        b + j < n) ∧ (n ≤ b + j → P.mask.testBit (P.first_byte_offset + j) = false) := by
      intro j hj
      constructor
      · intro hfix
        have hfixL : P.first_byte_offset + j < P.length := hwf.mask_bits _ hfix
        rcases hend with hendA | hendR
        · have hnA : n % A = 0 := by
            have hd : A ∣ n := by
              have h1 : A ∣ p + n := Nat.dvd_of_mod_eq_zero hendA
              have h2 : A ∣ p := Nat.dvd_of_mod_eq_zero hpA
              simpa using Nat.dvd_sub' h1 h2
            omega
          have : b + A ≤ n := by
            obtain ⟨q1, hq1⟩ := Nat.dvd_of_mod_eq_zero hbA
            obtain ⟨q2, hq2⟩ := Nat.dvd_of_mod_eq_zero hnA
            have hq : q1 < q2 := by
              by_contra hc
              push_neg at hc
              have : A * q2 ≤ A * q1 := Nat.mul_le_mul_left A hc
              omega
            have : A * (q1 + 1) ≤ A * q2 := Nat.mul_le_mul_left A (by omega)
            calc b + A = A * (q1 + 1) := by rw [hq1]; ring
              _ ≤ A * q2 := this
              _ = n := hq2.symm
          omega
        · by_contra hc
          push_neg at hc
          have : addr + len ≤ addr + o + P.first_byte_offset + j := by omega
          omega
      · intro hge'
        rcases hend with hendA | hendR
        · exfalso
          have hnA : n % A = 0 := by
            have hd : A ∣ n := by
              have h1 : A ∣ p + n := Nat.dvd_of_mod_eq_zero hendA
              have h2 : A ∣ p := Nat.dvd_of_mod_eq_zero hpA
              simpa using Nat.dvd_sub' h1 h2
            omega
          obtain ⟨q1, hq1⟩ := Nat.dvd_of_mod_eq_zero hbA
          obtain ⟨q2, hq2⟩ := Nat.dvd_of_mod_eq_zero hnA
          have hq : q1 < q2 := by
            by_contra hcq
            push_neg at hcq
            have : A * q2 ≤ A * q1 := Nat.mul_le_mul_left A hcq
            omega
          have : A * (q1 + 1) ≤ A * q2 := Nat.mul_le_mul_left A (by omega)
          have hbA' : b + A ≤ n := by
            calc b + A = A * (q1 + 1) := by rw [hq1]; ring
              _ ≤ A * q2 := this
              _ = n := hq2.symm
          omega
        · by_contra hfix
          rw [Bool.not_eq_false] at hfix
          have hjL : P.first_byte_offset + j < P.length := hwf.mask_bits _ hfix
          have : addr + len ≤ addr + o + P.first_byte_offset + j := by omega
          omega
    refine ⟨b, hbB, ?_, by omega, ?_, hmatch⟩
    · rw [build_testBit A B P mem hA hAB sb p n b]
      refine ⟨hbB, hbA, ?_, ?_⟩
      · -- search lanes
        intro j hj
        have hkB : b + j < B := group_lane_lt hAB hbA hbB hj
        have hmodg : (b + j) % A = j := mod_group A b j hbA hj
        by_cases hfix : P.mask.testBit (P.first_byte_offset + j) = true
        · left
          have hkn : b + j < n := (hlanes j hj).1 hfix
          have hjL : P.first_byte_offset + j < P.length := hwf.mask_bits _ hfix
          have hfb : P.first_bytes (b + j) = P.bytes (P.first_byte_offset + j) := by
            rw [hwf.first_bytes_eq (b + j) hkB, hmodg]
          rw [load_apply, hfb]
          have hval : mem (p + (b + j)) = P.bytes (P.first_byte_offset + j) := by
            have harg : p + (b + j) = addr + o + (P.first_byte_offset + j) := by omega
            rw [harg]
            exact hmatch _ hjL hfix
          by_cases hsb : sb = true
          · rw [hsb, if_pos rfl]
            have hdlm : (dataLenMask B n).testBit (b + j) = true := by
              rw [dataLenMask_testBit_lt _ hkB]
              simp only [decide_eq_true_eq]
              omega
            rw [hdlm, if_pos rfl]
            exact hval
          · have hsb' : sb = false := by
              cases sb
              · rfl
              · exact absurd rfl hsb
            rw [hsb', if_neg (by simp)]
            exact hval
        · right
          have hwild : P.mask.testBit (P.first_byte_offset + j) = false := by
            cases h : P.mask.testBit (P.first_byte_offset + j)
            · rfl
            · exact absurd h hfix
          have hA1 : A ≠ 1 := by
            intro h1
            subst h1
            obtain ⟨j', hj', hfix'⟩ := hwf.anchor_fixed
            have : j' = 0 := by omega
            have : j = 0 := by omega
            subst this
            rw [‹j' = 0›] at hfix'
            rw [hfix'] at hwild
            cases hwild
          refine ⟨h1A hA1, ?_⟩
          rw [hwf.fbm_eq, hmodg, hwild]
          simp [hkB]
      · -- mask_min_len lanes (safe builder only)
        intro hsb j hj
        have hkB : b + j < B := group_lane_lt hAB hbA hbB hj
        rw [maskMinLen_testBit A B P n (b + j) hA hAB hkB]
        by_cases hkn : b + j < n
        · left
          omega
        · right
          push_neg at hkn
          intro j' hj'
          rw [div_group hApos hbA hj]
          by_cases hkn' : b + j' < n
          · right
            have hkB' : b + j' < B := group_lane_lt hAB hbA hbB hj'
            omega
          · left
            push_neg at hkn'
            have hwild := (hlanes j' hj').2 hkn'
            rw [hwf.fbm_eq, mod_group A b j' hbA hj', hwild]
            simp [group_lane_lt hAB hbA hbB hj']
    · intro ⟨hsc, hshort⟩
      omega

theorem chunkYields_sorted_bits (A B : Nat) (P : Pattern) (mem : Nat → Nat)
    (addr len : Nat) (sc : Bool) (cm p : Nat)
    (hbits : ∀ b, cm.testBit b = true → addr + P.first_byte_offset ≤ p + b) :
    (chunkYields A B P mem addr len sc cm p).Sorted (· < ·) := by
  rw [chunkYields, List.Sorted, List.pairwise_filterMap]
  apply List.Pairwise.imp_of_mem ?_ (sorted_filter_range B _)
  intro x y hx hy hxy a ha b hb
  rw [List.mem_filter] at hx hy
  have hbx := hbits x hx.2
  have hby := hbits y hy.2
  rw [Option.mem_def] at ha hb
  have hax : a = p + x - P.first_byte_offset - addr := by
    dsimp only at ha
    split_ifs at ha
    · injection ha with h
      omega
  have hbey : b = p + y - P.first_byte_offset - addr := by
    dsimp only at hb
    split_ifs at hb
    · injection hb with h
      omega
  omega

theorem popB_le (B cm : Nat) : popB B cm ≤ B := by
  calc popB B cm ≤ (List.range B).length := List.length_filter_le _ _
    _ = B := List.length_range B

/-- No match survives past the end of the haystack. -/
theorem matchesG_nil (A B : Nat) (P : Pattern) (mem : Nat → Nat)
    (addr len q : Nat) (hwf : PatternWF A B P) (hq : addr + len ≤ q) :
    matchesG A P mem addr len q = [] := by
  rw [matchesG, List.filter_eq_nil_iff]
  intro o ho
  rw [List.mem_range] at ho
  simp only [specOkB, Bool.and_eq_true, decide_eq_true_eq, not_and]
  rintro ⟨⟨-, hoL⟩, -⟩
  have := hwf.fbo_lt
  omega

/-- Splitting the pending matches at a window boundary: the window's
matches come first, then the rest. -/
theorem matchesG_append (A B : Nat) (P : Pattern) (mem : Nat → Nat)
    (addr len : Nat) (hwf : PatternWF A B P) (p n : Nat) :
    matchesG A P mem addr len p =
      ((List.range len).filter (fun o => specOkB A P mem addr len o &&
        (decide (p ≤ addr + o + P.first_byte_offset) &&
          decide (addr + o + P.first_byte_offset < p + n)))) ++
      matchesG A P mem addr len (p + n) := by
  apply eq_of_sorted_of_mem_iff (sorted_filter_range len _)
  · rw [List.Sorted, List.pairwise_append]
    refine ⟨sorted_filter_range len _, sorted_filter_range len _, ?_⟩
    intro x hx y hy
    simp only [matchesG, List.mem_filter] at hx hy
    have hx2 := hx.2
    have hy2 := hy.2
    simp only [Bool.and_eq_true, decide_eq_true_eq] at hx2 hy2
    omega
  · intro o
    rw [List.mem_append]
    simp only [matchesG]
    simp only [List.mem_filter, List.mem_range, Bool.and_eq_true,
      decide_eq_true_eq]
    constructor
    · rintro ⟨ho, hs, hge⟩
      by_cases hlt : addr + o + P.first_byte_offset < p + n
      · exact Or.inl ⟨ho, hs, hge, hlt⟩
      · exact Or.inr ⟨ho, hs, by omega⟩
    · rintro (⟨ho, hs, hge, -⟩ | ⟨ho, hs, hge⟩)
      · exact ⟨ho, hs, hge⟩
      · exact ⟨ho, hs, by omega⟩

/-- Before the first alignment-feasible anchor address there are no
matches at all: every match offset is at least `da`, the distance to the
first aligned offset. -/
theorem matchesSpec_eq_matchesG (A B : Nat) (P : Pattern) (mem : Nat → Nat)
    (addr len : Nat) (hwf : PatternWF A B P) (da : Nat) (hA : 0 < A)
    (hda : da < A) (hmod : (addr + da) % A = 0) :
    matchesSpec A P mem addr len =
      matchesG A P mem addr len (addr + da + P.first_byte_offset) := by
  rw [matchesSpec, matchesG]
  apply List.filter_congr
  intro o ho
  cases hs : specOkB A P mem addr len o
  · rw [Bool.false_and]
  · rw [Bool.true_and]
    simp only [specOkB, Bool.and_eq_true, decide_eq_true_eq] at hs
    have hmeq : o % A = da % A := by
      have h1 : Nat.ModEq A (addr + o) (addr + da) := by
        unfold Nat.ModEq
        rw [hs.1.1, hmod]
      exact Nat.ModEq.add_left_cancel' addr h1
    have : da ≤ o := by
      have := Nat.mod_le o A
      rw [Nat.mod_eq_of_lt hda] at hmeq
      omega
    symm
    rw [decide_eq_true_eq]
    omega

/-- All pending matches, seen from a cursor at or before the first
feasible anchor. -/
theorem matchesG_all (A B : Nat) (P : Pattern) (mem : Nat → Nat)
    (addr len q : Nat) (hq : q ≤ addr + P.first_byte_offset) :
    matchesG A P mem addr len q = matchesSpec A P mem addr len := by
  rw [matchesG, matchesSpec]
  apply List.filter_congr
  intro o ho
  cases hs : specOkB A P mem addr len o
  · rw [Bool.false_and]
  · rw [Bool.true_and, decide_eq_true_eq]
    omega

/-- Draining a left-shifted mask at a correspondingly earlier position
yields the same offsets: the initial candidates mask is the build at the
anchor base, re-based to the pre-chunk cursor. -/
theorem chunkYields_shift (A B : Nat) (P : Pattern) (mem : Nat → Nat)
    (addr len : Nat) (sc : Bool) (r s' p : Nat)
    (hbound : ∀ b, r.testBit b = true → b + s' < B)
    (hps : addr + P.first_byte_offset ≤ p + s') :
    chunkYields A B P mem addr len sc (r <<< s') p =
      chunkYields A B P mem addr len sc r (p + s') := by
  apply eq_of_sorted_of_mem_iff
  · apply chunkYields_sorted_bits
    intro b hb
    rw [Nat.testBit_shiftLeft] at hb
    have := Bool.and_eq_true_iff.mp hb
    have hge : s' ≤ b := by
      have := this.1
      simpa using this
    omega
  · apply chunkYields_sorted_bits
    intro b _
    omega
  · intro o
    rw [chunkYields_mem, chunkYields_mem]
    constructor
    · rintro ⟨b, hbB, hbit, hoeq, hrest⟩
      rw [Nat.testBit_shiftLeft] at hbit
      obtain ⟨hge, hbit'⟩ := Bool.and_eq_true_iff.mp hbit
      have hge' : s' ≤ b := by simpa using hge
      refine ⟨b - s', ?_, hbit', ?_, hrest⟩
      · omega
      · omega
    · rintro ⟨b, hbB, hbit, hoeq, hrest⟩
      have hbs := hbound b hbit
      refine ⟨b + s', hbs, ?_, ?_, hrest⟩
      · rw [Nat.testBit_shiftLeft]
        have : b + s' - s' = b := by omega
        rw [this, hbit]
        simp
      · omega

/-- `Scanner::first_offset` produces an offset in `(0, 2·BYTES]` landing
on a `BYTES`-aligned address, strictly past the adjusted first possible
candidate, with at most one chunk between them. -/
theorem first_offset_spec (A B : Nat) (P : Pattern) (addr : Nat)
    (hB : 0 < B) (hAB : A ∣ B) (hfbo : P.first_byte_offset + A ≤ B) :
    (addr + first_offset A B P addr) % B = 0 ∧
    1 ≤ first_offset A B P addr ∧ first_offset A B P addr ≤ 2 * B ∧
    first_offset A B P addr % A + P.first_byte_offset < first_offset A B P addr ∧
    first_offset A B P addr -
      (first_offset A B P addr % A + P.first_byte_offset) ≤ B := by
  have hApos : 0 < A := Nat.pos_of_dvd_of_pos hAB hB
  obtain ⟨kB, hkB⟩ := hAB
  have hmain : ∀ a0 : Nat, 1 ≤ a0 → a0 ≤ B → (addr + a0) % B = 0 →
      ∀ r : Nat,
      r = (if a0 ≤ a0 % A + P.first_byte_offset then a0 + B else a0) →
      (addr + r) % B = 0 ∧ 1 ≤ r ∧ r ≤ 2 * B ∧
      r % A + P.first_byte_offset < r ∧
      r - (r % A + P.first_byte_offset) ≤ B := by
    intro a0 h1 h2 h3 r hr
    subst hr
    split_ifs with hbump
    · have hmodA : (a0 + B) % A = a0 % A := by
        rw [hkB, Nat.add_mul_mod_self_left]
      have hmodB : (addr + (a0 + B)) % B = 0 := by
        rw [← Nat.add_assoc, Nat.add_mod_right]
        exact h3
      have hAlt : a0 % A < A := Nat.mod_lt a0 hApos
      refine ⟨hmodB, by omega, by omega, ?_, ?_⟩
      · rw [hmodA]
        omega
      · rw [hmodA]
        omega
    · push_neg at hbump
      exact ⟨h3, h1, by omega, hbump, by omega⟩
  have hlt : addr % B < B := Nat.mod_lt addr hB
  by_cases hz : (B - addr % B) % B = 0
  · have haz : addr % B = 0 := by
      by_contra hnz
      have h2 : (B - addr % B) % B = B - addr % B :=
        Nat.mod_eq_of_lt (by omega)
      omega
    have hconn : first_offset A B P addr =
        (if B ≤ B % A + P.first_byte_offset then B + B else B) := by
      simp only [first_offset]
      rw [if_pos hz]
    rw [hconn]
    exact hmain B hB (Nat.le_refl B)
      (by rw [Nat.add_mod_right]; exact haz) _ rfl
  · have haz : addr % B ≠ 0 := by
      intro h
      rw [h, Nat.sub_zero, Nat.mod_self] at hz
      exact hz rfl
    have h2 : (B - addr % B) % B = B - addr % B :=
      Nat.mod_eq_of_lt (by omega)
    have hmod : (addr + (B - addr % B) % B) % B = 0 := by
      rw [h2]
      have hdm := Nat.div_add_mod addr B
      have heq : addr + (B - addr % B) = B * (addr / B) + B := by omega
      rw [heq, Nat.add_mod, Nat.mul_mod_right, Nat.mod_self]
      simp
    have hconn : first_offset A B P addr =
        (if (B - addr % B) % B ≤ (B - addr % B) % B % A + P.first_byte_offset
          then (B - addr % B) % B + B else (B - addr % B) % B) := by
      simp only [first_offset]
      rw [if_neg hz]
    rw [hconn]
    refine hmain ((B - addr % B) % B) (by omega) (by omega) hmod _ rfl

/-- Offsets the scanner will still yield from state `s`: the pending part
of the current chunk's candidates, then everything at or beyond the next
chunk boundary. -/
def rem (A B : Nat) (P : Pattern) (mem : Nat → Nat) (addr len : Nat)
    (s : SState) : List Nat :=
  chunkYields A B P mem addr len s.exhausted s.cm s.position ++
    matchesG A P mem addr len (s.position + B)

/-- The scanner-state invariant maintained by `Scanner::next`. -/
structure Inv (A B : Nat) (P : Pattern) (addr len : Nat) (s : SState) : Prop where
  hex : s.exhausted = decide (endAddr B addr len ≤ s.position)
  hpA : s.position % A = 0
  hfboB : addr + P.first_byte_offset ≤ s.position + B
  hbits : ∀ b, s.cm.testBit b = true →
    b < B ∧ addr + P.first_byte_offset ≤ s.position + b

theorem chunkYields_zero (A B : Nat) (P : Pattern) (mem : Nat → Nat)
    (addr len : Nat) (sc : Bool) (p : Nat) :
    chunkYields A B P mem addr len sc 0 p = [] := by
  rw [chunkYields]
  have : (List.range B).filter (fun b => (0 : Nat).testBit b) = [] := by
    apply List.filter_eq_nil_iff.mpr
    intro b _
    simp
  rw [this]
  rfl

/-- One `end_search` call pops the head of the remaining yields (or
certifies there is none), preserving the invariant. -/
theorem end_search_rem (A B : Nat) (P : Pattern) (mem : Nat → Nat)
    (addr len : Nat)
    (hA : A = 1 ∨ A = 2 ∨ A = 4 ∨ A = 8 ∨ A = 16 ∨ A = 32 ∨ A = 64)
    (hAB : A ∣ B) (hwf : PatternWF A B P) (haddr : 2 * B ≤ addr)
    (s : SState) (hInv : Inv A B P addr len s) (hexh : s.exhausted = true) :
    match end_search A B P mem addr len s with
    | (none, _) => rem A B P mem addr len s = []
    | (some o, s') => rem A B P mem addr len s = o :: rem A B P mem addr len s' ∧
        Inv A B P addr len s' := by
  have hB : 0 < B := Nat.lt_of_lt_of_le hwf.len_pos hwf.len_le
  have hend_le : endAddr B addr len ≤ s.position := by
    have h := hInv.hex
    rw [hexh] at h
    exact of_decide_eq_true h.symm
  have hbits1 := hInv.hbits
  have hstep := consume_step A B P mem addr len hwf true (B + 1) s.cm s.position
    (by have := popB_le B s.cm; omega) hbits1
  obtain ⟨hsub1, hmain1⟩ := hstep
  cases hcy : chunkYields A B P mem addr len true s.cm s.position with
  | cons o rest =>
    rw [hcy] at hmain1
    dsimp only at hmain1
    obtain ⟨hr1, hrest⟩ := hmain1
    have hes : end_search A B P mem addr len s =
        (some o, ⟨(consume B P mem addr len true (B + 1) s.cm s.position).2,
          s.position, s.exhausted⟩) := by
      rw [end_search, hr1]
    rw [hes]
    constructor
    · rw [rem, rem, hexh, hcy]
      dsimp only
      rw [hrest, List.cons_append]
    · have htd : decide (endAddr B addr len ≤ s.position) = true :=
        hInv.hex.symm.trans hexh
      exact ⟨by simp only [hexh, htd], hInv.hpA, hInv.hfboB,
        fun b hb => hbits1 b (hsub1 b hb)⟩
  | nil =>
    rw [hcy] at hmain1
    dsimp only at hmain1
    obtain ⟨hr1, hrest⟩ := hmain1
    have hremS : rem A B P mem addr len s =
        matchesG A P mem addr len (s.position + B) := by
      rw [rem, hexh, hcy, List.nil_append]
    by_cases hbr : s.position < endAddr B addr len + B
    · -- rebuild the final partial chunk at position + B
      set p' := s.position + B with hp'
      have hnval : endAddr B addr len + 2 * B - p' = addr + len - p' := by
        rw [endAddr]
        omega
      have hnle : addr + len - p' ≤ B := by
        rw [endAddr] at hbr hend_le
        omega
      have hple : p' ≤ addr + len := by
        rw [endAddr] at hbr
        omega
      have hwin := chunkYields_window A B P mem addr len hA hAB hwf true true
        p' (addr + len - p') hnle (by intro h; cases h)
        (by have := hInv.hfboB; omega)
        (by
          have hd : A ∣ p' := by
            rw [hp']
            exact Nat.dvd_add (Nat.dvd_of_mod_eq_zero hInv.hpA) hAB
          omega)
        (Or.inr (by omega)) (by intro h; cases h)
      have hMsplit := matchesG_append A B P mem addr len hwf p' (addr + len - p')
      have hMnil : matchesG A P mem addr len (p' + (addr + len - p')) = [] :=
        matchesG_nil A B P mem addr len _ hwf (by omega)
      have hMG : matchesG A P mem addr len p' =
          chunkYields A B P mem addr len true
            (end_candidates A B P mem addr len p') p' := by
        rw [hMsplit, hMnil, List.append_nil, end_candidates, hnval, hwin]
      -- second consume on the fresh end-chunk
      have hbits2 : ∀ b, (end_candidates A B P mem addr len p').testBit b = true →
          b < B ∧ addr + P.first_byte_offset ≤ p' + b := by
        intro b hb
        rw [end_candidates] at hb
        have := build_safe_bits_lt A B P mem hA hAB hwf p' _ b hb
        have h2 := hInv.hfboB
        omega
      have hstep2 := consume_step A B P mem addr len hwf true (B + 1)
        (end_candidates A B P mem addr len p') p'
        (by have := popB_le B (end_candidates A B P mem addr len p'); omega) hbits2
      obtain ⟨hsub2, hmain2⟩ := hstep2
      cases hcy2 : chunkYields A B P mem addr len true
          (end_candidates A B P mem addr len p') p' with
      | nil =>
        rw [hcy2] at hmain2
        dsimp only at hmain2
        obtain ⟨hr2, -⟩ := hmain2
        have hes : end_search A B P mem addr len s =
            ((consume B P mem addr len true (B + 1)
                (end_candidates A B P mem addr len p') p').1,
              ⟨(consume B P mem addr len true (B + 1)
                (end_candidates A B P mem addr len p') p').2,
                p', s.exhausted⟩) := by
          rw [end_search, hr1]
          dsimp only
          rw [if_pos hbr]
        rw [hes, hr2]
        rw [hremS, hMG, hcy2]
      | cons o rest =>
        rw [hcy2] at hmain2
        dsimp only at hmain2
        obtain ⟨hr2, hrest2⟩ := hmain2
        have hes : end_search A B P mem addr len s =
            (some o,
              ⟨(consume B P mem addr len true (B + 1)
                (end_candidates A B P mem addr len p') p').2,
                p', s.exhausted⟩) := by
          rw [end_search, hr1]
          dsimp only
          rw [if_pos hbr]
          rw [hr2]
        rw [hes]
        constructor
        · rw [hremS, hMG, hcy2, rem]
          dsimp only
          rw [hexh, hrest2]
          have : matchesG A P mem addr len (p' + B) = [] :=
            matchesG_nil A B P mem addr len _ hwf (by omega)
          rw [this, List.append_nil]
        · refine ⟨?_, ?_, ?_, ?_⟩
          · show s.exhausted = decide (endAddr B addr len ≤ p')
            rw [hexh]
            symm
            rw [decide_eq_true_eq]
            omega
          · show p' % A = 0
            have hd : A ∣ p' := by
              rw [hp']
              exact Nat.dvd_add (Nat.dvd_of_mod_eq_zero hInv.hpA) hAB
            omega
          · show addr + P.first_byte_offset ≤ p' + B
            have := hInv.hfboB
            omega
          · intro b hb
            show b < B ∧ addr + P.first_byte_offset ≤ p' + b
            exact hbits2 b (hsub2 b hb)
    · -- no rebuild: the cursor is already past the last chunk
      have hes : end_search A B P mem addr len s =
          ((consume B P mem addr len true (B + 1)
              (consume B P mem addr len true (B + 1) s.cm s.position).2
              s.position).1,
            ⟨(consume B P mem addr len true (B + 1)
              (consume B P mem addr len true (B + 1) s.cm s.position).2
              s.position).2, s.position, s.exhausted⟩) := by
        rw [end_search, hr1]
        dsimp only
        rw [if_neg hbr]
      have hbits2 : ∀ b,
          (consume B P mem addr len true (B + 1) s.cm s.position).2.testBit b = true →
          b < B ∧ addr + P.first_byte_offset ≤ s.position + b :=
        fun b hb => hbits1 b (hsub1 b hb)
      have hstep2 := consume_step A B P mem addr len hwf true (B + 1)
        (consume B P mem addr len true (B + 1) s.cm s.position).2 s.position
        (by
          have := popB_le B (consume B P mem addr len true (B + 1) s.cm s.position).2
          omega) hbits2
      obtain ⟨-, hmain2⟩ := hstep2
      rw [hrest] at hmain2
      dsimp only at hmain2
      obtain ⟨hr2, -⟩ := hmain2
      rw [hes, hr2]
      rw [hremS]
      apply matchesG_nil A B P mem addr len _ hwf
      rw [endAddr] at hbr
      omega

/-- The hot loop pops the head of the remaining yields (or certifies
there is none), preserving the invariant.  `fuel` only needs to cover the
distance to the end of data. -/
theorem hotLoop_rem (A B : Nat) (P : Pattern) (mem : Nat → Nat)
    (addr len : Nat)
    (hA : A = 1 ∨ A = 2 ∨ A = 4 ∨ A = 8 ∨ A = 16 ∨ A = 32 ∨ A = 64)
    (hAB : A ∣ B) (hwf : PatternWF A B P) (haddr : 2 * B ≤ addr) :
    ∀ (fuel : Nat) (s : SState), Inv A B P addr len s → s.exhausted = false →
    endAddr B addr len < s.position + B * fuel →
    match hotLoop A B P mem addr len fuel s with
    | (none, _) => rem A B P mem addr len s = []
    | (some o, s') => rem A B P mem addr len s = o :: rem A B P mem addr len s' ∧
        Inv A B P addr len s' := by
  have hB : 0 < B := Nat.lt_of_lt_of_le hwf.len_pos hwf.len_le
  intro fuel
  induction fuel with
  | zero =>
    intro s hInv hexh hfuel
    have h := hInv.hex
    rw [hexh] at h
    have := of_decide_eq_false h.symm
    omega
  | succ fuel ih =>
    intro s hInv hexh hfuel
    have hpos_lt : s.position < endAddr B addr len := by
      have h := hInv.hex
      rw [hexh] at h
      have := of_decide_eq_false h.symm
      omega
    have hbits1 := hInv.hbits
    have hstep := consume_step A B P mem addr len hwf false (B + 1) s.cm s.position
      (by have := popB_le B s.cm; omega) hbits1
    obtain ⟨hsub1, hmain1⟩ := hstep
    cases hcy : chunkYields A B P mem addr len false s.cm s.position with
    | cons o rest =>
      rw [hcy] at hmain1
      dsimp only at hmain1
      obtain ⟨hr1, hrest⟩ := hmain1
      have hhl : hotLoop A B P mem addr len (fuel + 1) s =
          (some o, ⟨(consume B P mem addr len false (B + 1) s.cm s.position).2,
            s.position, false⟩) := by
        rw [hotLoop, hr1]
      rw [hhl]
      constructor
      · rw [rem, rem, hexh, hcy]
        dsimp only
        rw [hrest, List.cons_append]
      · have htd : decide (endAddr B addr len ≤ s.position) = false :=
          hInv.hex.symm.trans hexh
        exact ⟨by simp only [htd], hInv.hpA, hInv.hfboB,
          fun b hb => hbits1 b (hsub1 b hb)⟩
    | nil =>
      rw [hcy] at hmain1
      dsimp only at hmain1
      obtain ⟨hr1, -⟩ := hmain1
      have hremS : rem A B P mem addr len s =
          matchesG A P mem addr len (s.position + B) := by
        rw [rem, hexh, hcy, List.nil_append]
      have hp'A : (s.position + B) % A = 0 := by
        have hd : A ∣ s.position + B :=
          Nat.dvd_add (Nat.dvd_of_mod_eq_zero hInv.hpA) hAB
        omega
      have hp'fbo : addr + P.first_byte_offset ≤ s.position + B := hInv.hfboB
      by_cases hend' : endAddr B addr len ≤ s.position + B
      · -- hand off to end_search on a fresh fast-built chunk
        have hhl : hotLoop A B P mem addr len (fuel + 1) s =
            end_search A B P mem addr len
              ⟨build_candidates A B P mem false (s.position + B) B,
                s.position + B, true⟩ := by
          rw [hotLoop, hr1]
          dsimp only
          rw [if_pos hend']
        have hwin := chunkYields_window A B P mem addr len hA hAB hwf false true
          (s.position + B) B (Nat.le_refl B) (fun _ => rfl) hp'fbo hp'A
          (Or.inl (by
            have hd : A ∣ s.position + B + B :=
              Nat.dvd_add (Nat.dvd_of_mod_eq_zero hp'A) hAB
            omega))
          (by intro h; cases h)
        have hInv1 : Inv A B P addr len
            ⟨build_candidates A B P mem false (s.position + B) B,
              s.position + B, true⟩ := by
          refine ⟨?_, hp'A, ?_, ?_⟩
          case refine_2 =>
            show addr + P.first_byte_offset ≤ s.position + B + B
            omega
          · show true = decide (endAddr B addr len ≤ s.position + B)
            symm
            rw [decide_eq_true_eq]
            exact hend'
          · intro b hb
            show b < B ∧ addr + P.first_byte_offset ≤ s.position + B + b
            have hbB := ((build_testBit A B P mem hA hAB false
              (s.position + B) B b).mp hb).1
            omega
        have hrel : rem A B P mem addr len s =
            rem A B P mem addr len
              ⟨build_candidates A B P mem false (s.position + B) B,
                s.position + B, true⟩ := by
          rw [hremS, rem]
          dsimp only
          rw [hwin,
            matchesG_append A B P mem addr len hwf (s.position + B) B]
        have hes := end_search_rem A B P mem addr len hA hAB hwf haddr
          ⟨build_candidates A B P mem false (s.position + B) B,
            s.position + B, true⟩ hInv1 rfl
        rw [hhl]
        cases hesv : end_search A B P mem addr len
            ⟨build_candidates A B P mem false (s.position + B) B,
              s.position + B, true⟩ with
        | mk fst snd =>
          rw [hesv] at hes
          cases fst with
          | none =>
            dsimp only at hes ⊢
            rw [hrel]
            exact hes
          | some o =>
            dsimp only at hes ⊢
            exact ⟨hrel.trans hes.1, hes.2⟩
      · -- keep looping
        push_neg at hend'
        have hhl : hotLoop A B P mem addr len (fuel + 1) s =
            hotLoop A B P mem addr len fuel
              ⟨build_candidates A B P mem false (s.position + B) B,
                s.position + B, false⟩ := by
          rw [hotLoop, hr1]
          dsimp only
          rw [if_neg (by omega)]
        have hwin := chunkYields_window A B P mem addr len hA hAB hwf false false
          (s.position + B) B (Nat.le_refl B) (fun _ => rfl) hp'fbo hp'A
          (Or.inl (by
            have hd : A ∣ s.position + B + B :=
              Nat.dvd_add (Nat.dvd_of_mod_eq_zero hp'A) hAB
            omega))
          (by
            intro _
            rw [endAddr] at hend'
            omega)
        have hInv2 : Inv A B P addr len
            ⟨build_candidates A B P mem false (s.position + B) B,
              s.position + B, false⟩ := by
          refine ⟨?_, hp'A, ?_, ?_⟩
          case refine_2 =>
            show addr + P.first_byte_offset ≤ s.position + B + B
            omega
          · show false = decide (endAddr B addr len ≤ s.position + B)
            symm
            rw [decide_eq_false_iff_not]
            omega
          · intro b hb
            show b < B ∧ addr + P.first_byte_offset ≤ s.position + B + b
            have hbB := ((build_testBit A B P mem hA hAB false
              (s.position + B) B b).mp hb).1
            omega
        have hrel : rem A B P mem addr len s =
            rem A B P mem addr len
              ⟨build_candidates A B P mem false (s.position + B) B,
                s.position + B, false⟩ := by
          rw [hremS, rem]
          dsimp only
          rw [hwin,
            matchesG_append A B P mem addr len hwf (s.position + B) B]
        have hih := ih ⟨build_candidates A B P mem false (s.position + B) B,
            s.position + B, false⟩ hInv2 rfl
          (by
            have hexp : s.position + B * (fuel + 1) = s.position + B + B * fuel := by
              ring
            show endAddr B addr len < s.position + B + B * fuel
            omega)
        rw [hhl]
        cases hhlv : hotLoop A B P mem addr len fuel
            ⟨build_candidates A B P mem false (s.position + B) B,
              s.position + B, false⟩ with
        | mk fst snd =>
          rw [hhlv] at hih
          cases fst with
          | none =>
            dsimp only at hih ⊢
            rw [hrel]
            exact hih
          | some o =>
            dsimp only at hih ⊢
            exact ⟨hrel.trans hih.1, hih.2⟩

/-- One `Scanner::next` call pops the head of the remaining yields or
certifies there is none. -/
theorem next_rem (A B : Nat) (P : Pattern) (mem : Nat → Nat)
    (addr len : Nat)
    (hA : A = 1 ∨ A = 2 ∨ A = 4 ∨ A = 8 ∨ A = 16 ∨ A = 32 ∨ A = 64)
    (hAB : A ∣ B) (hwf : PatternWF A B P) (haddr : 2 * B ≤ addr)
    (s : SState) (hInv : Inv A B P addr len s) :
    match next A B P mem addr len s with
    | (none, _) => rem A B P mem addr len s = []
    | (some o, s') => rem A B P mem addr len s = o :: rem A B P mem addr len s' ∧
        Inv A B P addr len s' := by
  have hB : 0 < B := Nat.lt_of_lt_of_le hwf.len_pos hwf.len_le
  rw [next]
  cases hexh : s.exhausted with
  | true =>
    rw [if_pos rfl]
    exact end_search_rem A B P mem addr len hA hAB hwf haddr s hInv hexh
  | false =>
    rw [if_neg (by simp)]
    apply hotLoop_rem A B P mem addr len hA hAB hwf haddr (len + 1) s hInv hexh
    have h1 : len ≤ B * len := Nat.le_mul_of_pos_left len hB
    have h2 := hInv.hfboB
    rw [endAddr]
    have h3 : B * (len + 1) = B * len + B := by ring
    omega

/-- Iterating `next` returns exactly the remaining yields. -/
theorem run_eq_rem (A B : Nat) (P : Pattern) (mem : Nat → Nat)
    (addr len : Nat)
    (hA : A = 1 ∨ A = 2 ∨ A = 4 ∨ A = 8 ∨ A = 16 ∨ A = 32 ∨ A = 64)
    (hAB : A ∣ B) (hwf : PatternWF A B P) (haddr : 2 * B ≤ addr) :
    ∀ (fuel : Nat) (s : SState), Inv A B P addr len s →
    (rem A B P mem addr len s).length < fuel →
    run A B P mem addr len fuel s = rem A B P mem addr len s := by
  intro fuel
  induction fuel with
  | zero => intro s _ h; omega
  | succ fuel ih =>
    intro s hInv hlen
    have hnext := next_rem A B P mem addr len hA hAB hwf haddr s hInv
    rw [run]
    cases hnv : next A B P mem addr len s with
    | mk fst snd =>
      rw [hnv] at hnext
      cases fst with
      | none =>
        dsimp only at hnext ⊢
        rw [hnext]
      | some o =>
        dsimp only at hnext ⊢
        obtain ⟨hrem, hInv'⟩ := hnext
        rw [hrem]
        rw [ih snd hInv' (by rw [hrem] at hlen; simp at hlen; omega)]

theorem mod_align (A x y : Nat) (h : (x + y) % A = 0) : (x + y % A) % A = 0 := by
  rw [Nat.add_mod, Nat.mod_mod_of_dvd y (dvd_refl A), ← Nat.add_mod]
  exact h

/-- `Scanner::new` leaves exactly the full match list pending, and
establishes the scanner invariant. -/
theorem init_rem (A B : Nat) (P : Pattern) (mem : Nat → Nat)
    (addr len : Nat)
    (hA : A = 1 ∨ A = 2 ∨ A = 4 ∨ A = 8 ∨ A = 16 ∨ A = 32 ∨ A = 64)
    (hAB : A ∣ B) (hwf : PatternWF A B P) (haddr : 2 * B ≤ addr)
    (hB64 : B ≤ 64) :
    rem A B P mem addr len (initState A B P mem addr len) =
      matchesSpec A P mem addr len ∧
    Inv A B P addr len (initState A B P mem addr len) := by
  have hB : 0 < B := Nat.lt_of_lt_of_le hwf.len_pos hwf.len_le
  have hApos : 0 < A := Nat.pos_of_dvd_of_pos hAB hB
  have hL := hwf.len_pos
  have hfboL := hwf.fbo_lt
  obtain ⟨hfoB, hao1, hao2, hfplt, hfpn⟩ :=
    first_offset_spec A B P addr hB hAB hwf.fbo_le
  set ao := first_offset A B P addr with hao
  have hposdef : (initState A B P mem addr len).position = addr + ao - B := rfl
  have hcmdef : (initState A B P mem addr len).cm =
    initial_candidates A B P mem addr len ao := rfl
  have hexdef : (initState A B P mem addr len).exhausted =
    decide (endAddr B addr len ≤ addr + ao - B) := rfl
  have hpv : addr + ao - B + B = addr + ao := by omega
  have hAdvd : A ∣ addr + ao := Nat.dvd_trans hAB (Nat.dvd_of_mod_eq_zero hfoB)
  have hBdvd : B ∣ addr + ao - B := by
    obtain ⟨k, hk⟩ := Nat.dvd_of_mod_eq_zero hfoB
    refine ⟨k - 1, ?_⟩
    have h2 : B * (k - 1) + B = B * k := by
      cases k with
      | zero => omega
      | succ k' => simp [Nat.mul_succ]
    omega
  have hpA : (addr + ao - B) % A = 0 := by
    have hd : A ∣ addr + ao - B := Nat.dvd_trans hAB hBdvd
    omega
  have hda : ao % A < A := Nat.mod_lt ao hApos
  have hdale : ao % A ≤ ao := Nat.mod_le ao A
  have hmodda : (addr + ao % A) % A = 0 := mod_align A addr ao (by omega)
  have hMS := matchesSpec_eq_matchesG A B P mem addr len hwf (ao % A) hApos
    hda hmodda
  have hInvGoal : Inv A B P addr len (initState A B P mem addr len) → True :=
    fun _ => trivial
  by_cases hguard : len - ao % A < P.length
  · -- short data: no candidates and no matches at all
    have hcm0 : initial_candidates A B P mem addr len ao = 0 := by
      simp only [initial_candidates]
      rw [if_pos hguard]
    have hnil1 : matchesG A P mem addr len
        (addr + ao % A + P.first_byte_offset) = [] := by
      rw [matchesG, List.filter_eq_nil_iff]
      intro o ho hok
      rw [List.mem_range] at ho
      simp only [specOkB, Bool.and_eq_true, decide_eq_true_eq] at hok
      obtain ⟨⟨⟨h1, h2⟩, h3⟩, h4⟩ := hok
      omega
    have hnil2 : matchesG A P mem addr len (addr + ao) = [] := by
      rw [matchesG, List.filter_eq_nil_iff]
      intro o ho hok
      rw [List.mem_range] at ho
      simp only [specOkB, Bool.and_eq_true, decide_eq_true_eq] at hok
      obtain ⟨⟨⟨h1, h2⟩, h3⟩, h4⟩ := hok
      omega
    constructor
    · rw [rem, hposdef, hcmdef, hcm0, hpv, chunkYields_zero, List.nil_append,
        hnil2, hMS, hnil1]
    · refine ⟨rfl, ?_, ?_, ?_⟩
      · rw [hposdef]
        exact hpA
      · rw [hposdef]
        omega
      · intro b hb
        rw [hcmdef, hcm0] at hb
        simp at hb
  · -- the real initial chunk
    push_neg at hguard
    set r := build_candidates A B P mem true
      (addr + (ao % A + P.first_byte_offset))
      (min ao len - (ao % A + P.first_byte_offset)) with hr
    have hfple : ao % A + P.first_byte_offset < min ao len := by
      rcases Nat.le_total ao len with h | h
      · rw [Nat.min_eq_left h]
        exact hfplt
      · rw [Nat.min_eq_right h]
        omega
    have hcmval : initial_candidates A B P mem addr len ao =
        (r <<< (B + (ao % A + P.first_byte_offset) - ao)) % 2 ^ 64 := by
      simp only [initial_candidates]
      rw [if_neg (by omega)]
    have hrbits : ∀ b, r.testBit b = true →
        b < min ao len - (ao % A + P.first_byte_offset) ∧ b < B := by
      intro b hb
      rw [hr] at hb
      have := build_safe_bits_lt A B P mem hA hAB hwf _ _ b hb
      omega
    have hshbits : ∀ b, r.testBit b = true →
        b + (B + (ao % A + P.first_byte_offset) - ao) < B := by
      intro b hb
      have h1 := (hrbits b hb).1
      rcases Nat.le_total ao len with h | h
      · rw [Nat.min_eq_left h] at h1
        omega
      · rw [Nat.min_eq_right h] at h1
        omega
    have hmodeq : (r <<< (B + (ao % A + P.first_byte_offset) - ao)) % 2 ^ 64 =
        r <<< (B + (ao % A + P.first_byte_offset) - ao) := by
      apply Nat.mod_eq_of_lt
      have hlt : r <<< (B + (ao % A + P.first_byte_offset) - ao) < 2 ^ B := by
        apply lt_two_pow_of_bits
        intro b hb
        rw [Nat.testBit_shiftLeft] at hb
        obtain ⟨hge, hbit⟩ := Bool.and_eq_true_iff.mp hb
        have hge' : B + (ao % A + P.first_byte_offset) - ao ≤ b := by
          simpa using hge
        have := hshbits _ hbit
        omega
      calc r <<< (B + (ao % A + P.first_byte_offset) - ao) < 2 ^ B := hlt
        _ ≤ 2 ^ 64 := Nat.pow_le_pow_right (by norm_num) hB64
    have hposs : addr + ao - B + (B + (ao % A + P.first_byte_offset) - ao) =
        addr + (ao % A + P.first_byte_offset) := by omega
    have hcys : ∀ sc : Bool,
        chunkYields A B P mem addr len sc
          (initial_candidates A B P mem addr len ao) (addr + ao - B) =
        chunkYields A B P mem addr len sc r
          (addr + (ao % A + P.first_byte_offset)) := by
      intro sc
      rw [hcmval, hmodeq,
        chunkYields_shift A B P mem addr len sc r _ _ hshbits
          (by rw [hposs]; omega), hposs]
    have hpA' : (addr + (ao % A + P.first_byte_offset)) % A = 0 := by
      have hd : A ∣ addr + (ao % A + P.first_byte_offset) := by
        have h1 : A ∣ addr + ao % A := Nat.dvd_of_mod_eq_zero hmodda
        have h2 : A ∣ P.first_byte_offset := Nat.dvd_of_mod_eq_zero hwf.fbo_mod
        have h3 : addr + (ao % A + P.first_byte_offset) =
            (addr + ao % A) + P.first_byte_offset := by omega
        rw [h3]
        exact Nat.dvd_add h1 h2
      omega
    have hwin := chunkYields_window A B P mem addr len hA hAB hwf true
      (initState A B P mem addr len).exhausted
      (addr + (ao % A + P.first_byte_offset))
      (min ao len - (ao % A + P.first_byte_offset))
      (by omega) (by intro h; cases h) (by omega) hpA'
      (by
        rcases Nat.le_total ao len with h | h
        · left
          rw [Nat.min_eq_left h]
          have heq : addr + (ao % A + P.first_byte_offset) +
              (ao - (ao % A + P.first_byte_offset)) = addr + ao := by omega
          rw [heq]
          omega
        · right
          rw [Nat.min_eq_right h]
          omega)
      (by
        intro hsc
        rw [hexdef] at hsc
        have hlt := of_decide_eq_false hsc
        rw [endAddr] at hlt
        have haolen : ao + B < len := by omega
        rw [Nat.min_eq_left (by omega)]
        omega)
    have hsplit := matchesG_append A B P mem addr len hwf
      (addr + (ao % A + P.first_byte_offset))
      (min ao len - (ao % A + P.first_byte_offset))
    have htail : matchesG A P mem addr len
        (addr + (ao % A + P.first_byte_offset) +
          (min ao len - (ao % A + P.first_byte_offset))) =
        matchesG A P mem addr len (addr + ao) := by
      rcases Nat.le_total ao len with h | h
      · rw [Nat.min_eq_left h]
        have heq : addr + (ao % A + P.first_byte_offset) +
            (ao - (ao % A + P.first_byte_offset)) = addr + ao := by omega
        rw [heq]
      · rw [Nat.min_eq_right h]
        have heq : addr + (ao % A + P.first_byte_offset) +
            (len - (ao % A + P.first_byte_offset)) = addr + len := by omega
        rw [heq, matchesG_nil A B P mem addr len _ hwf (Nat.le_refl _),
          matchesG_nil A B P mem addr len _ hwf (by omega)]
    constructor
    · have hwin' := hwin
      rw [← hr] at hwin'
      rw [rem, hposdef, hcmdef, hpv, hcys, hwin', hMS]
      have hfp_assoc : addr + ao % A + P.first_byte_offset =
          addr + (ao % A + P.first_byte_offset) := by omega
      rw [hfp_assoc, hsplit, htail]
    · refine ⟨rfl, ?_, ?_, ?_⟩
      · rw [hposdef]
        exact hpA
      · rw [hposdef]
        omega
      · intro b hb
        rw [hcmdef, hcmval, hmodeq] at hb
        rw [Nat.testBit_shiftLeft] at hb
        obtain ⟨hge, hbit⟩ := Bool.and_eq_true_iff.mp hb
        have hge' : B + (ao % A + P.first_byte_offset) - ao ≤ b := by
          simpa using hge
        have h1 := hshbits _ hbit
        rw [hposdef]
        constructor
        · omega
        · omega

/-- The complete characterization: the scanner yields exactly the
alignment-filtered, in-bounds, mask-respecting match offsets, in
increasing order. -/
theorem scanYields_eq_matchesSpec (A B : Nat) (P : Pattern) (mem : Nat → Nat)
    (addr len : Nat)
    (hA : A = 1 ∨ A = 2 ∨ A = 4 ∨ A = 8 ∨ A = 16 ∨ A = 32 ∨ A = 64)
    (hAB : A ∣ B) (hwf : PatternWF A B P) (haddr : 2 * B ≤ addr)
    (hB64 : B ≤ 64) :
    scanYields A B P mem addr len = matchesSpec A P mem addr len := by
  rw [scanYields]
  by_cases hlen : len = 0
  · subst hlen
    rw [if_pos rfl, matchesSpec]
    rfl
  · rw [if_neg hlen]
    obtain ⟨hrem, hInv⟩ := init_rem A B P mem addr len hA hAB hwf haddr hB64
    rw [run_eq_rem A B P mem addr len hA hAB hwf haddr (len + 1)
      (initState A B P mem addr len) hInv
      (by
        rw [hrem, matchesSpec]
        calc ((List.range len).filter _).length ≤ (List.range len).length :=
            List.length_filter_le _ _
          _ = len := List.length_range len
          _ < len + 1 := Nat.lt_succ_self len), hrem]

theorem getD_drop {α : Type} (l : List α) (n i : Nat) (d : α) :
    (l.drop n).getD i d = l.getD (n + i) d := by
  simp [List.getD_eq_getElem?_getD, List.getElem?_drop]

/-- Every pattern produced by a successful `Pattern::from_str` satisfies
the scanner's well-formedness interface. -/
theorem from_str_wf (A B : Nat) (hApos : 0 < A) (hAB : A ∣ B) (s : List Nat)
    (P : Pattern) (h : from_str A B s = .ok P) : PatternWF A B P := by
  obtain ⟨buffer, mask, htoks, hp, hf, hb, hm, hbytes, hmask, hplen, hfb, hfbm⟩ :=
    from_str_ok_inv A B s P h
  have hBA : B / A * A = B := Nat.div_mul_cancel hAB
  obtain ⟨g, hg1, hg2, hg3, hg4, hg5⟩ := ffbo_ok_spec A hApos mask _ hf
  rw [hm] at hg2
  have hfboA : g * A + A ≤ B := by
    have h1 : (g + 1) * A ≤ (B / A) * A := Nat.mul_le_mul_right A hg2
    calc g * A + A = (g + 1) * A := by ring
      _ ≤ (B / A) * A := h1
      _ = B := hBA
  -- a fixed position inside the anchor group
  have hmem : ∃ j < A, mask.getD (g * A + j) false = true := by
    rw [groupCount] at hg3
    have hlen : ((mask.drop (g * A)).take A).length = A := by
      rw [List.length_take, List.length_drop, hm]
      omega
    obtain ⟨j, hj, hjt⟩ : ∃ j < A, ((mask.drop (g * A)).take A).getD j false = true := by
      by_contra hc
      push_neg at hc
      have : ((mask.drop (g * A)).take A).count true = 0 := by
        rw [List.count_eq_zero]
        intro hmem'
        obtain ⟨k, hk⟩ := List.get_of_mem hmem'
        have hklen : (k : Nat) < A := by
          have := k.isLt
          omega
        have := hc k hklen
        rw [List.getD_eq_getElem _ _ (by omega)] at this
        rw [List.get_eq_getElem] at hk
        exact this hk
      omega
    refine ⟨j, hj, ?_⟩
    rw [List.getD_eq_getElem _ _ (by omega)] at hjt
    rw [List.getElem_take, List.getElem_drop] at hjt
    rw [List.getD_eq_getElem _ _ (by rw [hm]; omega)]
    exact hjt
  -- every set mask entry lies below the token count
  have hmask_lt : ∀ j, mask.getD j false = true → j < (tokens s).length := by
    intro j hj
    by_cases hjB : j < B
    · have := (parseToks_mask (tokens s) 0 (List.replicate B 0)
        (List.replicate B false) buffer mask hp
        (by rw [List.length_replicate]; omega) j).mp hj
      rcases this with hinit | ⟨k, hk1, hk2, -⟩
      · rw [List.getD_eq_getElem _ _ (by rw [List.length_replicate]; omega)] at hinit
        simp at hinit
      · omega
    · rw [List.getD_eq_default _ _ (by rw [hm]; omega)] at hj
      cases hj
  have hLpos : 0 < (tokens s).length := by
    obtain ⟨j, hj, hjt⟩ := hmem
    have := hmask_lt _ hjt
    omega
  have hfbo_lt : P.first_byte_offset < P.length := by
    obtain ⟨j, hj, hjt⟩ := hmem
    have := hmask_lt _ hjt
    rw [hplen, hg1]
    omega
  have hmaskbit : ∀ i, P.mask.testBit i = (decide (i < B) && mask.getD i false) := by
    intro i
    rw [hmask, testBit_bitsOf]
  refine ⟨?_, ?_, ?_, ?_, hfbo_lt, ?_, ?_, ?_, ?_⟩
  · rw [hplen]
    exact hLpos
  · rw [hplen]
    omega
  · rw [hg1]
    exact Nat.mul_mod_left g A
  · rw [hg1]
    exact hfboA
  · intro i hi
    rw [hmaskbit] at hi
    obtain ⟨-, h2⟩ := Bool.and_eq_true_iff.mp hi
    rw [hplen]
    exact hmask_lt i h2
  · obtain ⟨j, hj, hjt⟩ := hmem
    refine ⟨j, hj, ?_⟩
    rw [hmaskbit, hg1]
    have hjb : g * A + j < B := by omega
    rw [decide_eq_true hjb, hjt]
    rfl
  · intro k hk
    rw [hfb, hbytes, fill_first_bytes]
    dsimp only
    rw [hBA, if_pos hk, getD_drop]
  · intro k
    rw [hfbm, fill_first_bytes]
    dsimp only
    rw [testBit_bitsOf, hBA]
    by_cases hk : k < B
    · have hkA : k % A < A := Nat.mod_lt k hApos
      have hfb2 : P.first_byte_offset + k % A < B := by
        rw [hg1]
        have : g * A + A ≤ B := hfboA
        omega
      rw [getD_drop, hmaskbit]
      simp [hk, hfb2]
    · simp [hk]

/-! ## Claim theorems C1–C6 -/

def defaultPattern : Pattern := ⟨fun _ => 0, 0, fun _ => 0, 0, 0, 0⟩

/-- The haystack `[0x05, 0xff, 0xf7, 0x00]` used by the alignment
counterexamples, placed at a chosen base address. -/
def cexData : List Nat := [5, 255, 247, 0]

def cexMem (base : Nat) : Nat → Nat := fun x => cexData.getD (x - base) 0xAA

/-- One `0x42` byte at address 128. -/
def mem42 : Nat → Nat := fun x => if x = 128 then 0x42 else 0xAA

/-- C1: every offset yielded by the scanner is a true match of the
compiled pattern: at every non-wildcard position `i < P.length` the
haystack byte at `o + i` equals the pattern byte. -/
theorem claim_C1_soundness (A B : Nat)
    (hA : A = 1 ∨ A = 2 ∨ A = 4 ∨ A = 8 ∨ A = 16 ∨ A = 32 ∨ A = 64)
    (hAB : A ∣ B) (hB64 : B ≤ 64) (s : List Nat) (P : Pattern)
    (h : from_str A B s = .ok P) (mem : Nat → Nat) (addr len : Nat)
    (haddr : 2 * B ≤ addr) (o : Nat)
    (ho : o ∈ scanYields A B P mem addr len) :
    matchAt P mem addr o := by
  have hApos : 0 < A := by
    rcases hA with rfl | rfl | rfl | rfl | rfl | rfl | rfl <;> norm_num
  have hwf := from_str_wf A B hApos hAB s P h
  rw [scanYields_eq_matchesSpec A B P mem addr len hA hAB hwf haddr hB64] at ho
  rw [matchesSpec, List.mem_filter] at ho
  have h2 := ho.2
  simp only [specOkB, Bool.and_eq_true, decide_eq_true_eq] at h2
  exact h2.2

set_option maxRecDepth 1000000 in
theorem claim_C1_witness :
    0 ∈ scanYields 1 64 ((from_str 1 64 [0x30, 0x30]).toOption.getD
        defaultPattern) (fun _ => 0) 128 1 ∧
    matchAt ((from_str 1 64 [0x30, 0x30]).toOption.getD defaultPattern)
      (fun _ => 0) 128 0 :=
  ⟨by decide,
    claim_C1_soundness 1 64 (Or.inl rfl) (by decide) (by decide) [0x30, 0x30]
      ((from_str 1 64 [0x30, 0x30]).toOption.getD defaultPattern) (by rfl)
      (fun _ => 0) 128 1 (by decide) 0 (by decide)⟩

set_option maxRecDepth 1000000 in
/-- C2, counterexample to the claim as stated: the pattern `"00"` at
alignment 2 matches the single-byte all-zero haystack at slice offset 0,
which is a multiple of the alignment measured from the slice base, and
the pattern fits — yet a scan based at the odd address 129 yields
nothing, because the scanner aligns to the absolute address
`base + offset`, not to the slice-relative offset. -/
theorem claim_C2_counterexample :
    ((from_str 2 64 [0x30, 0x30]).toOption.map (fun P =>
      (decide (matchAt P (fun _ => 0) 129 0), decide ((0 : Nat) % 2 = 0),
        P.length, scanYields 2 64 P (fun _ => 0) 129 1))) =
      some (true, true, 1, []) := by
  decide

/-- C2, amended: every offset `o` at which the compiled pattern matches,
which fits in the haystack, and whose **absolute** address `addr + o` is
a multiple of the alignment, is yielded by the scanner. -/
theorem claim_C2_completeness (A B : Nat)
    (hA : A = 1 ∨ A = 2 ∨ A = 4 ∨ A = 8 ∨ A = 16 ∨ A = 32 ∨ A = 64)
    (hAB : A ∣ B) (hB64 : B ≤ 64) (s : List Nat) (P : Pattern)
    (h : from_str A B s = .ok P) (mem : Nat → Nat) (addr len : Nat)
    (haddr : 2 * B ≤ addr) (o : Nat)
    (hmatch : matchAt P mem addr o) (hlen : o + P.length ≤ len)
    (halign : (addr + o) % A = 0) :
    o ∈ scanYields A B P mem addr len := by
  have hApos : 0 < A := by
    rcases hA with rfl | rfl | rfl | rfl | rfl | rfl | rfl <;> norm_num
  have hwf := from_str_wf A B hApos hAB s P h
  rw [scanYields_eq_matchesSpec A B P mem addr len hA hAB hwf haddr hB64]
  rw [matchesSpec, List.mem_filter, List.mem_range]
  have hL := hwf.len_pos
  refine ⟨by omega, ?_⟩
  simp only [specOkB, Bool.and_eq_true, decide_eq_true_eq]
  exact ⟨⟨halign, hlen⟩, hmatch⟩

set_option maxRecDepth 1000000 in
theorem claim_C2_witness :
    matchAt ((from_str 2 64 [0x30, 0x30]).toOption.getD defaultPattern)
      (fun _ => 0) 128 0 ∧
    0 + ((from_str 2 64 [0x30, 0x30]).toOption.getD defaultPattern).length ≤ 1 ∧
    (128 + 0) % 2 = 0 ∧
    0 ∈ scanYields 2 64 ((from_str 2 64 [0x30, 0x30]).toOption.getD
      defaultPattern) (fun _ => 0) 128 1 :=
  ⟨by decide, by decide, by decide,
    claim_C2_completeness 2 64 (Or.inr (Or.inl rfl)) (by decide) (by decide)
      [0x30, 0x30] ((from_str 2 64 [0x30, 0x30]).toOption.getD defaultPattern)
      (by rfl) (fun _ => 0) 128 1 (by decide) 0 (by decide) (by decide)
      (by decide)⟩

set_option maxRecDepth 1000000 in
/-- C3, counterexample to the claim as stated: the pattern `"00"` at
alignment 2, scanned over `[0x05, 0xff, 0xf7, 0x00]` based at the odd
address 129, yields offset 3 — an odd slice-relative offset.  The
alignment filter works on absolute addresses (`129 + 3` is even), not on
slice-relative offsets. -/
theorem claim_C3_counterexample :
    ((from_str 2 64 [0x30, 0x30]).toOption.map (fun P =>
      scanYields 2 64 P (cexMem 129) 129 4)) = some [3] ∧ 3 % 2 = 1 := by
  constructor
  · decide
  · rfl

/-- C3, amended: for alignment `a`, every yielded offset `o` satisfies
`(addr + o) mod a = 0` — the absolute address of the match is
alignment-aligned (slice-relative alignment only coincides with this
when the base address is itself aligned). -/
theorem claim_C3_alignment (A B : Nat)
    (hA : A = 1 ∨ A = 2 ∨ A = 4 ∨ A = 8 ∨ A = 16 ∨ A = 32 ∨ A = 64)
    (hAB : A ∣ B) (hB64 : B ≤ 64) (s : List Nat) (P : Pattern)
    (h : from_str A B s = .ok P) (mem : Nat → Nat) (addr len : Nat)
    (haddr : 2 * B ≤ addr) (o : Nat)
    (ho : o ∈ scanYields A B P mem addr len) :
    (addr + o) % A = 0 := by
  have hApos : 0 < A := by
    rcases hA with rfl | rfl | rfl | rfl | rfl | rfl | rfl <;> norm_num
  have hwf := from_str_wf A B hApos hAB s P h
  rw [scanYields_eq_matchesSpec A B P mem addr len hA hAB hwf haddr hB64] at ho
  rw [matchesSpec, List.mem_filter] at ho
  have h2 := ho.2
  simp only [specOkB, Bool.and_eq_true, decide_eq_true_eq] at h2
  exact h2.1.1

set_option maxRecDepth 1000000 in
theorem claim_C3_witness :
    3 ∈ scanYields 2 64 ((from_str 2 64 [0x30, 0x30]).toOption.getD
      defaultPattern) (cexMem 129) 129 4 ∧ (129 + 3) % 2 = 0 :=
  ⟨by decide,
    claim_C3_alignment 2 64 (Or.inr (Or.inl rfl)) (by decide) (by decide)
      [0x30, 0x30] ((from_str 2 64 [0x30, 0x30]).toOption.getD defaultPattern)
      (by rfl) (cexMem 129) 129 4 (by decide) 3 (by decide)⟩

set_option maxRecDepth 1000000 in
/-- C4, counterexample to the claim as stated: the same data bytes
`[0x05, 0xff, 0xf7, 0x00]` scanned with the pattern `"00"` at alignment 2
from base address 128 yield `[]`, but from base address 129 yield `[3]`:
with an alignment configured, the result depends on the haystack base
address, so shifting the base changes the yielded offsets. -/
theorem claim_C4_counterexample :
    ((from_str 2 64 [0x30, 0x30]).toOption.map (fun P =>
      (scanYields 2 64 P (cexMem 128) 128 4,
        scanYields 2 64 P (cexMem 129) 129 4))) = some ([], [3]) := by
  decide

/-- C4, amended: without an alignment constraint (`ALIGNMENT = 1`) the
scan result is invariant under the haystack base address: scanning the
same data bytes placed at any two base addresses yields identical
offsets.  (With `ALIGNMENT > 1` the result additionally depends on
`addr mod ALIGNMENT`, as the counterexample shows.) -/
theorem claim_C4_base_independence (B : Nat) (hB64 : B ≤ 64) (s : List Nat)
    (P : Pattern) (h : from_str 1 B s = .ok P) (mem₁ mem₂ : Nat → Nat)
    (addr₁ addr₂ len : Nat) (haddr₁ : 2 * B ≤ addr₁) (haddr₂ : 2 * B ≤ addr₂)
    (hdata : ∀ i < len, mem₁ (addr₁ + i) = mem₂ (addr₂ + i)) :
    scanYields 1 B P mem₁ addr₁ len = scanYields 1 B P mem₂ addr₂ len := by
  have hwf := from_str_wf 1 B (by norm_num) (one_dvd B) s P h
  rw [scanYields_eq_matchesSpec 1 B P mem₁ addr₁ len (Or.inl rfl) (one_dvd B)
      hwf haddr₁ hB64,
    scanYields_eq_matchesSpec 1 B P mem₂ addr₂ len (Or.inl rfl) (one_dvd B)
      hwf haddr₂ hB64]
  rw [matchesSpec, matchesSpec]
  apply List.filter_congr
  intro o ho
  rw [List.mem_range] at ho
  by_cases hol : o + P.length ≤ len
  · have hma : matchAt P mem₁ addr₁ o ↔ matchAt P mem₂ addr₂ o := by
      unfold matchAt
      constructor <;> intro hm i hi hb
      · have hd := hdata (o + i) (by omega)
        have e1 : addr₁ + (o + i) = addr₁ + o + i := by omega
        have e2 : addr₂ + (o + i) = addr₂ + o + i := by omega
        rw [e1, e2] at hd
        rw [← hd]
        exact hm i hi hb
      · have hd := hdata (o + i) (by omega)
        have e1 : addr₁ + (o + i) = addr₁ + o + i := by omega
        have e2 : addr₂ + (o + i) = addr₂ + o + i := by omega
        rw [e1, e2] at hd
        rw [hd]
        exact hm i hi hb
    simp only [specOkB, Nat.mod_one]
    rw [decide_eq_decide.mpr hma]
  · have h2 : decide (o + P.length ≤ len) = false := decide_eq_false hol
    simp [specOkB, h2]

set_option maxRecDepth 1000000 in
theorem claim_C4_witness :
    (∀ i < 1, (fun _ : Nat => (0 : Nat)) (128 + i) =
      (fun _ : Nat => (0 : Nat)) (192 + i)) ∧
    scanYields 1 64 ((from_str 1 64 [0x30, 0x30]).toOption.getD defaultPattern)
      (fun _ => 0) 128 1 =
    scanYields 1 64 ((from_str 1 64 [0x30, 0x30]).toOption.getD defaultPattern)
      (fun _ => 0) 192 1 :=
  ⟨fun _ _ => rfl,
    claim_C4_base_independence 64 (by decide) [0x30, 0x30]
      ((from_str 1 64 [0x30, 0x30]).toOption.getD defaultPattern) (by rfl)
      (fun _ => 0) (fun _ => 0) 128 192 1 (by decide) (by decide)
      (fun _ _ => rfl)⟩

/-- C5: within one cursor the yielded offsets are strictly increasing:
the yield sequence is sorted under `<`. -/
theorem claim_C5_monotone (A B : Nat)
    (hA : A = 1 ∨ A = 2 ∨ A = 4 ∨ A = 8 ∨ A = 16 ∨ A = 32 ∨ A = 64)
    (hAB : A ∣ B) (hB64 : B ≤ 64) (s : List Nat) (P : Pattern)
    (h : from_str A B s = .ok P) (mem : Nat → Nat) (addr len : Nat)
    (haddr : 2 * B ≤ addr) :
    (scanYields A B P mem addr len).Sorted (· < ·) := by
  have hApos : 0 < A := by
    rcases hA with rfl | rfl | rfl | rfl | rfl | rfl | rfl <;> norm_num
  have hwf := from_str_wf A B hApos hAB s P h
  rw [scanYields_eq_matchesSpec A B P mem addr len hA hAB hwf haddr hB64]
  exact sorted_filter_range len _
set_option maxRecDepth 1000000 in
theorem claim_C5_witness :
    (2 : Nat) ∣ 64 ∧
    (scanYields 2 64 ((from_str 2 64 [0x30, 0x30]).toOption.getD
      defaultPattern) (cexMem 129) 129 4).Sorted (· < ·) :=
  ⟨by decide,
    claim_C5_monotone 2 64 (Or.inr (Or.inl rfl)) (by decide) (by decide)
      [0x30, 0x30] ((from_str 2 64 [0x30, 0x30]).toOption.getD defaultPattern)
      (by rfl) (cexMem 129) 129 4 (by decide)⟩

/-- C6: every yielded offset leaves the whole wildcard-inclusive pattern
length readable: `o + P.length ≤ len`.  In particular a pattern with a
trailing wildcard cannot match at the last byte of the haystack. -/
theorem claim_C6_min_span (A B : Nat)
    (hA : A = 1 ∨ A = 2 ∨ A = 4 ∨ A = 8 ∨ A = 16 ∨ A = 32 ∨ A = 64)
    (hAB : A ∣ B) (hB64 : B ≤ 64) (s : List Nat) (P : Pattern)
    (h : from_str A B s = .ok P) (mem : Nat → Nat) (addr len : Nat)
    (haddr : 2 * B ≤ addr) (o : Nat)
    (ho : o ∈ scanYields A B P mem addr len) :
    o + P.length ≤ len := by
  have hApos : 0 < A := by
    rcases hA with rfl | rfl | rfl | rfl | rfl | rfl | rfl <;> norm_num
  have hwf := from_str_wf A B hApos hAB s P h
  rw [scanYields_eq_matchesSpec A B P mem addr len hA hAB hwf haddr hB64] at ho
  rw [matchesSpec, List.mem_filter] at ho
  have h2 := ho.2
  simp only [specOkB, Bool.and_eq_true, decide_eq_true_eq] at h2
  exact h2.1.2

set_option maxRecDepth 1000000 in
theorem claim_C6_witness :
    3 ∈ scanYields 2 64 ((from_str 2 64 [0x30, 0x30]).toOption.getD
      defaultPattern) (cexMem 129) 129 4 ∧
    3 + ((from_str 2 64 [0x30, 0x30]).toOption.getD defaultPattern).length ≤ 4 ∧
    ((from_str 1 64 [0x34, 0x32, 0x20, 0x30, 0x30]).toOption.map (fun P =>
      scanYields 1 64 P mem42 128 1)) = some [] ∧
    ((from_str 1 64 [0x34, 0x32, 0x20, 0x3F]).toOption.map (fun P =>
      scanYields 1 64 P mem42 128 1)) = some [] :=
  ⟨by decide,
    claim_C6_min_span 2 64 (Or.inr (Or.inl rfl)) (by decide) (by decide)
      [0x30, 0x30] ((from_str 2 64 [0x30, 0x30]).toOption.getD defaultPattern)
      (by rfl) (cexMem 129) 129 4 (by decide) 3 (by decide),
    by decide, by decide⟩

end Patterns
